import Mathlib

/-!
Verification development for the pyRavenMatrices element-structure model and
its transformation engine (modules pyRavenMatrices/element.py and
pyRavenMatrices/transformation.py).

The element tree is shallowly embedded as the inductive type ElementNode.
Drawing routines, decorators and parameter dictionaries are never inspected
by the structural code, so they are modelled as opaque numeric atoms compared
by identity, which is exactly how Python compares function objects stored in
vars(self).  Fallible Python code (raised exceptions, the unbound local in
transform) is modelled with Except PyError.  The deep-copy performed by
Transformation.call and add is the identity on values; the separate heap
model at the end of the definitions makes object identity and in-place
mutation explicit in order to state the no-mutation (frame) properties.
-/

/-- Concrete node kinds of the element syntax: BasicElement, EmptyElement,
ElementModifier, ModifiedElement and CompositeElement from element.py.
The routine, decorator and params fields are opaque atoms. -/
inductive ElementNode : Type where
  | basicElement (routine : Nat) (params : Nat)
  | emptyElement
  | elementModifier (decorator : Nat) (params : Nat)
  | modifiedElement (element : ElementNode) (modifiers : List ElementNode)
  | compositeElement (elements : List ElementNode)

/-- Python class name of a node, as used in error messages. -/
def typeName : ElementNode → String
  | .basicElement _ _ => "BasicElement"
  | .emptyElement => "EmptyElement"
  | .elementModifier _ _ => "ElementModifier"
  | .modifiedElement _ _ => "ModifiedElement"
  | .compositeElement _ => "CompositeElement"

/-- Errors raised by the Python code: TypeError with a message,
UnboundLocalError (reading the never-assigned ret in transform), and a
fuel marker used only by the bounded loop of get_subtrees (proved
unreachable for the fuel it is run with). -/
inductive PyError : Type where
  | typeError (msg : String)
  | unboundLocal
  | fuelOut
deriving DecidableEq

mutual

/-- ElementNode.eq from element.py: self == other iff type(self) == type(other)
and vars(self) == vars(other).  Field dictionaries compare by value; list
fields compare pointwise with the same equality. -/
def pyEq : ElementNode → ElementNode → Bool
  | .basicElement r p, .basicElement r2 p2 => r == r2 && p == p2
  | .emptyElement, .emptyElement => true
  | .elementModifier d p, .elementModifier d2 p2 => d == d2 && p == p2
  | .modifiedElement b ms, .modifiedElement b2 ms2 => pyEq b b2 && pyEqList ms ms2
  | .compositeElement es, .compositeElement es2 => pyEqList es es2
  | _, _ => false

/-- Pointwise Python equality of the list-valued fields (modifiers, elements). -/
def pyEqList : List ElementNode → List ElementNode → Bool
  | [], [] => true
  | x :: xs, y :: ys => pyEq x y && pyEqList xs ys
  | _, _ => false

end

/-- isinstance(x, Element): every node kind except ElementModifier. -/
def isElem : ElementNode → Bool
  | .elementModifier _ _ => false
  | _ => true

/-- isinstance(x, ElementModifier). -/
def isModifierNode : ElementNode → Bool
  | .elementModifier _ _ => true
  | _ => false

/-- isinstance(x, BasicElement). -/
def isBasicE : ElementNode → Bool
  | .basicElement _ _ => true
  | _ => false

/-- isinstance(x, ModifiedElement). -/
def isModifiedE : ElementNode → Bool
  | .modifiedElement _ _ => true
  | _ => false

/-- isinstance(x, CompositeElement). -/
def isCompositeE : ElementNode → Bool
  | .compositeElement _ => true
  | _ => false

/-- Python truthiness: EmptyElement.bool returns False, every other node is
truthy. -/
def truthy : ElementNode → Bool
  | .emptyElement => false
  | _ => true

/-- The test new_subelt and isinstance(new_subelt, Element) from transform:
a truthy genuine Element, i.e. a Basic, Modified or Composite node. -/
def isGenuine (e : ElementNode) : Bool :=
  truthy e && isElem e

/-- Direct sub-objects visited by the traversals: Modified.element together
with Modified.modifiers, and Composite.elements; leaves (and EmptyElement)
have none. -/
def children : ElementNode → List ElementNode
  | .modifiedElement b ms => b :: ms
  | .compositeElement es => es
  | _ => []

/-- Reachability along the children relation, starting from a root (the root
itself is reachable). -/
inductive Reach : ElementNode → ElementNode → Prop where
  | refl (e : ElementNode) : Reach e e
  | child {e c x : ElementNode} : c ∈ children e → Reach c x → Reach e x

mutual

/-- All nodes of a tree, with duplicates, root first.  Used only to bound the
number of iterations of the get_subtrees worklist loop. -/
def allNodes : ElementNode → List ElementNode
  | .basicElement r p => [.basicElement r p]
  | .emptyElement => [.emptyElement]
  | .elementModifier d p => [.elementModifier d p]
  | .modifiedElement b ms => .modifiedElement b ms :: (allNodes b ++ allNodesList ms)
  | .compositeElement es => .compositeElement es :: allNodesList es

/-- allNodes over a list of trees, concatenated. -/
def allNodesList : List ElementNode → List ElementNode
  | [] => []
  | x :: xs => allNodes x ++ allNodesList xs

end

/-- Structural induction principle for ElementNode that hands the inductive
hypothesis to every member of the list-valued fields. -/
def ElementNode.strongInd {P : ElementNode → Prop} (e : ElementNode)
    (hb : ∀ r p, P (.basicElement r p))
    (he : P .emptyElement)
    (hm : ∀ d p, P (.elementModifier d p))
    (hmod : ∀ b ms, P b → (∀ m ∈ ms, P m) → P (.modifiedElement b ms))
    (hcomp : ∀ es, (∀ c ∈ es, P c) → P (.compositeElement es)) : P e :=
  match e with
  | .basicElement r p => hb r p
  | .emptyElement => he
  | .elementModifier d p => hm d p
  | .modifiedElement b ms =>
      hmod b ms (ElementNode.strongInd b hb he hm hmod hcomp)
        (fun m hmem => ElementNode.strongInd m hb he hm hmod hcomp)
  | .compositeElement es =>
      hcomp es (fun c hmem => ElementNode.strongInd c hb he hm hmod hcomp)
termination_by sizeOf e
decreasing_by
  · simp_wf; omega
  · simp_wf
    have := List.sizeOf_lt_of_mem hmem
    omega
  · simp_wf
    have := List.sizeOf_lt_of_mem hmem
    omega

/-- Python membership needle in lst, deciding x == y with ElementNode.eq. -/
def containsPy (out : List ElementNode) (x : ElementNode) : Bool :=
  out.any (fun y => pyEq x y)

/-- One Python for-loop that appends each item of xs to acc unless it is
already present (the dedup pattern of get_subtrees). -/
def dedupAppend (acc : List ElementNode) (xs : List ElementNode) : List ElementNode :=
  xs.foldl (fun a x => if containsPy a x then a else a ++ [x]) acc

/-- Worklist loop of get_subtrees from element.py: iterate over the growing
output list; BasicElement and ElementModifier entries terminate, Modified
entries enqueue their base and modifiers, Composite entries enqueue their
sub-elements, and any other node kind (here: EmptyElement) raises TypeError.
The fuel argument only bounds the iteration count; get_subtrees below runs
the loop with provably sufficient fuel. -/
def gsGo : Nat → List ElementNode → Nat → Except PyError (List ElementNode)
  | 0, out, i => if i < out.length then .error .fuelOut else .ok out
  | fuel + 1, out, i =>
    match out[i]? with
    | none => .ok out
    | some sub =>
      match sub with
      | .basicElement _ _ => gsGo fuel out (i + 1)
      | .elementModifier _ _ => gsGo fuel out (i + 1)
      | .modifiedElement b ms =>
          gsGo fuel (dedupAppend (if containsPy out b then out else out ++ [b]) ms) (i + 1)
      | .compositeElement es =>
          gsGo fuel (dedupAppend out es) (i + 1)
      | .emptyElement =>
          .error (.typeError ("Unexpected type " ++ typeName sub))

/-- get_subtrees from element.py: the list of all unique subelements of
element, computed by the worklist loop seeded with the root. -/
def get_subtrees (element : ElementNode) : Except PyError (List ElementNode) :=
  gsGo ((allNodes element).length + 1) [element] 0

mutual

/-- transform from transformation.py.  Apply op to every occurrence of loc in
element.  A node equal to loc is handed to op; leaves pass through; a
Modified node collapses to Empty when its transformed base is not a truthy
Element, drops transformed modifiers that are no longer ElementModifier, and
degrades to the bare base when no modifier remains; a Composite node keeps
the transformed children that are genuine (non-Empty) Elements and reforms a
Composite, a single survivor, or Empty.  The missing dispatch branch for
EmptyElement leaves the local ret unassigned, which Python raises as
UnboundLocalError. -/
def transform (element : ElementNode) (op : ElementNode → Except PyError ElementNode)
    (loc : ElementNode) : Except PyError ElementNode :=
  if pyEq element loc then op element
  else
    match element with
    | .basicElement r p => .ok (.basicElement r p)
    | .elementModifier d p => .ok (.elementModifier d p)
    | .modifiedElement b ms =>
      match transform b op loc with
      | .error e => .error e
      | .ok newSubelt =>
        if isGenuine newSubelt then
          match transformList ms op loc with
          | .error e => .error e
          | .ok tfds =>
            let newMods := tfds.filter isModifierNode
            if newMods.isEmpty then .ok newSubelt
            else .ok (.modifiedElement newSubelt newMods)
        else .ok .emptyElement
    | .compositeElement es =>
      match transformList es op loc with
      | .error e => .error e
      | .ok tfds =>
        match tfds.filter isGenuine with
        | [] => .ok .emptyElement
        | [x] => .ok x
        | x :: y :: rest => .ok (.compositeElement (x :: y :: rest))
    | .emptyElement => .error .unboundLocal

/-- The generator expressions of transform: transform each member of a
list-valued field in order, propagating the first raised exception. -/
def transformList (l : List ElementNode) (op : ElementNode → Except PyError ElementNode)
    (loc : ElementNode) : Except PyError (List ElementNode) :=
  match l with
  | [] => .ok []
  | x :: xs =>
    match transform x op loc with
    | .error e => .error e
    | .ok tx =>
      match transformList xs op loc with
      | .error e => .error e
      | .ok txs => .ok (tx :: txs)

end

/-- output.elements.append(addition) on a Composite node. -/
def appendChild : ElementNode → ElementNode → ElementNode
  | .compositeElement es, x => .compositeElement (es ++ [x])
  | e, _ => e

/-- output.modifiers.append(addition) on a Modified node. -/
def appendModifier : ElementNode → ElementNode → ElementNode
  | .modifiedElement b ms, x => .modifiedElement b (ms ++ [x])
  | e, _ => e

/-- add from transformation.py.  The deep copy of element is the identity at
the level of values; the isinstance dispatch chain is transcribed branch by
branch, and the fall-through returns the copied element unchanged. -/
def add (element addition : ElementNode) : ElementNode :=
  let output := element
  if (isBasicE output || isModifiedE output) && isElem addition then
    .compositeElement [output, addition]
  else if (isBasicE output || isCompositeE output) && isModifierNode addition then
    .modifiedElement output [addition]
  else if isCompositeE output && isElem addition then
    appendChild output addition
  else if isModifiedE output && isModifierNode addition then
    appendModifier output addition
  else
    output

/-- remove from transformation.py: unconditionally EmptyElement. -/
def remove (_element : ElementNode) : ElementNode :=
  .emptyElement

/-- replace from transformation.py: return replacement after the capability
check, raising TypeError when an Element position would receive a
non-Element or a modifier position a non-modifier. -/
def replace (element replacement : ElementNode) : Except PyError ElementNode :=
  if isElem element && !(isElem replacement) then
    .error (.typeError ("Expected Element, got " ++ typeName replacement))
  else if isModifierNode element && !(isModifierNode replacement) then
    .error (.typeError ("Expected ElementModifier, got " ++ typeName replacement))
  else
    .ok replacement

/-- A rule of a Transformation: the condition pattern together with the
action (op, loc); extra positional arguments of the action are already
partially applied inside op. -/
abbrev Rule : Type :=
  ElementNode × (ElementNode → Except PyError ElementNode) × ElementNode

/-- Transformation from transformation.py: an ordered list of
(condition, action) pairs. -/
structure Transformation : Type where
  pairs : List Rule

/-- Loop body of Transformation.call: for each pair in order, test whether
the condition occurs among the subtrees of the original element and, if so,
rebind the working copy to the transformed result. -/
def transformationGo : List Rule → ElementNode → ElementNode → Except PyError ElementNode
  | [], _, output => .ok output
  | (condition, op, loc) :: rest, element, output =>
    match get_subtrees element with
    | .error e => .error e
    | .ok subs =>
      if subs.any (fun s => pyEq condition s) then
        match transform output op loc with
        | .error e => .error e
        | .ok output1 => transformationGo rest element output1
      else
        transformationGo rest element output

/-- Transformation.call from transformation.py: deep-copy the input (the
identity on values) and run the rule loop against the original element. -/
def Transformation.call (t : Transformation) (element : ElementNode) :
    Except PyError ElementNode :=
  transformationGo t.pairs element element

/-- Apply the actions of the given rules in order to the working copy,
ignoring their conditions.  This is the specification-side description of
the engine: the rules that fire are selected once against the original tree
and their actions are then folded over the evolving copy. -/
def applyActions : List Rule → ElementNode → Except PyError ElementNode
  | [], output => .ok output
  | (_, op, loc) :: rest, output =>
    match transform output op loc with
    | .error e => .error e
    | .ok output1 => applyActions rest output1

mutual

/-- Arity invariant of the data model: every reachable Modified node has at
least one modifier and every reachable Composite node has at least two
sub-elements. -/
def wf : ElementNode → Bool
  | .basicElement _ _ => true
  | .emptyElement => true
  | .elementModifier _ _ => true
  | .modifiedElement b ms => !ms.isEmpty && wf b && wfList ms
  | .compositeElement es => decide (2 ≤ es.length) && wfList es

/-- The arity invariant for each member of a list of nodes. -/
def wfList : List ElementNode → Bool
  | [] => true
  | x :: xs => wf x && wfList xs

end

/-- An operation preserves the arity invariant when its successful results on
invariant-satisfying inputs satisfy the invariant. -/
def OpWf (op : ElementNode → Except PyError ElementNode) : Prop :=
  ∀ x, wf x = true → ∀ y, op x = .ok y → wf y = true

/-- The nodes on which transform is invoked while rewriting a tree: the root,
and recursively the base of a non-matching Modified node, its modifiers once
the transformed base is known to be genuine, and the children of a
non-matching Composite node. -/
inductive Visits (op : ElementNode → Except PyError ElementNode) (loc : ElementNode) :
    ElementNode → ElementNode → Prop where
  | here (e : ElementNode) : Visits op loc e e
  | modBase {b x : ElementNode} {ms : List ElementNode} :
      pyEq (.modifiedElement b ms) loc = false → Visits op loc b x →
      Visits op loc (.modifiedElement b ms) x
  | modMod {b b2 m x : ElementNode} {ms : List ElementNode} :
      pyEq (.modifiedElement b ms) loc = false →
      transform b op loc = .ok b2 → isGenuine b2 = true → m ∈ ms →
      Visits op loc m x → Visits op loc (.modifiedElement b ms) x
  | compChild {c x : ElementNode} {es : List ElementNode} :
      pyEq (.compositeElement es) loc = false → c ∈ es →
      Visits op loc c x → Visits op loc (.compositeElement es) x

/-- Modelled from the spec: the three attribute names a Target may store,
naming the field of the parent node that holds the addressed child
(Modified.element, Modified.modifiers, Composite.elements).  The Target
addressing component (get_targets) is described in the spec but its code is
not part of the provided sources. -/
inductive TargetAttr : Type where
  | element
  | modifiers
  | elements

/-- Modelled from the spec: the node-variant tag attached to the Target of a
leaf, which is either a basic element or a modifier. -/
inductive TargetTag : Type where
  | basicTag
  | modifierTag

/-- Modelled from the spec: a Target is a path descriptor holding an optional
attribute name, an optional index, an optional parent Target and an optional
node-variant tag. -/
inductive Target : Type where
  | mk (attrName : Option TargetAttr) (index : Option Nat)
       (parent : Option Target) (variantTag : Option TargetTag)

/-- Modelled from the spec: the Target of the tree root carries no attribute,
index or parent. -/
def rootTarget : Target :=
  .mk none none none none

/-- Modelled from the spec: tag an accumulated Target with the variant of the
leaf it addresses. -/
def tagTarget : Target → TargetTag → Target
  | .mk attrName index parent _, tag => .mk attrName index parent (some tag)

/-- Modelled from the spec: the attribute lookup followed by the index
lookup, applied to an already-resolved parent node. -/
def resolveFrom (node : ElementNode) (attrName : Option TargetAttr)
    (index : Option Nat) : Option ElementNode :=
  match attrName, index with
  | none, none => some node
  | some .element, none =>
    match node with
    | .modifiedElement b _ => some b
    | _ => none
  | some .modifiers, some i =>
    match node with
    | .modifiedElement _ ms => ms[i]?
    | _ => none
  | some .elements, some i =>
    match node with
    | .compositeElement es => es[i]?
    | _ => none
  | _, _ => none

/-- Modelled from the spec: resolving a Target against a tree resolves the
parent chain first, then applies the stored attribute lookup, then the
stored index lookup. -/
def resolveTarget : Target → ElementNode → Option ElementNode
  | .mk attrName index parent _, root =>
    match parent with
    | none => resolveFrom root attrName index
    | some p =>
      match resolveTarget p root with
      | none => none
      | some node => resolveFrom node attrName index

/-- A leaf of the tree in the sense of the Target component: a basic element
or a modifier. -/
def isLeafNode (e : ElementNode) : Bool :=
  isBasicE e || isModifierNode e

mutual

/-- Modelled from the spec: recursive descent mirroring the get_subtrees
traversal; at each step the child Target is chained to the parent Target via
attribute and index, and at a leaf the accumulated Target is emitted, tagged
with the leaf's variant, paired here with the leaf itself. -/
def getTargets : ElementNode → Target → List (ElementNode × Target)
  | .basicElement r p, t => [(.basicElement r p, tagTarget t .basicTag)]
  | .elementModifier d p, t => [(.elementModifier d p, tagTarget t .modifierTag)]
  | .emptyElement, _ => []
  | .modifiedElement b ms, t =>
      getTargets b (.mk (some .element) none (some t) none) ++
        getTargetsIdx ms .modifiers t 0
  | .compositeElement es, t => getTargetsIdx es .elements t 0

/-- Modelled from the spec: descent into an indexed field, numbering the
members from the given starting index. -/
def getTargetsIdx : List ElementNode → TargetAttr → Target → Nat → List (ElementNode × Target)
  | [], _, _, _ => []
  | x :: xs, a, t, i =>
      getTargets x (.mk (some a) (some i) (some t) none) ++ getTargetsIdx xs a t (i + 1)

end

/-- Modelled from the spec: the Targets of all leaves of a tree, produced by
the descent seeded with the root Target. -/
def get_targets (element : ElementNode) : List (ElementNode × Target) :=
  getTargets element rootTarget

/-- Heap-level node: same five variants, with sub-objects referred to by
store indices instead of values.  This makes Python object identity and
in-place mutation explicit. -/
inductive HNode : Type where
  | basicElement (routine params : Nat)
  | emptyElement
  | elementModifier (decorator params : Nat)
  | modifiedElement (element : Nat) (modifiers : List Nat)
  | compositeElement (elements : List Nat)
deriving DecidableEq

/-- The heap: object identities are list positions; allocation appends. -/
abbrev Store : Type := List HNode

/-- Allocate a fresh object and return its identity. -/
def alloc (s : Store) (n : HNode) : Store × Nat :=
  (s ++ [n], s.length)

/-- isinstance(x, BasicElement) at the heap level. -/
def isBasicH : HNode → Bool
  | .basicElement _ _ => true
  | _ => false

/-- isinstance(x, ModifiedElement) at the heap level. -/
def isModifiedH : HNode → Bool
  | .modifiedElement _ _ => true
  | _ => false

/-- isinstance(x, CompositeElement) at the heap level. -/
def isCompositeH : HNode → Bool
  | .compositeElement _ => true
  | _ => false

/-- isinstance(x, Element) at the heap level. -/
def isElemH : HNode → Bool
  | .elementModifier _ _ => false
  | _ => true

/-- isinstance(x, ElementModifier) at the heap level. -/
def isModifierH : HNode → Bool
  | .elementModifier _ _ => true
  | _ => false

/-- Truthy genuine Element test at the heap level. -/
def isGenuineH : HNode → Bool
  | .basicElement _ _ => true
  | .modifiedElement _ _ => true
  | .compositeElement _ => true
  | _ => false

/-- Store indices held by a heap node. -/
def hchildren : HNode → List Nat
  | .modifiedElement b ms => b :: ms
  | .compositeElement es => es
  | _ => []

/-- A store is closed when every held index is a valid object identity. -/
def ClosedStore (s : Store) : Prop :=
  ∀ n ∈ s, ∀ j ∈ hchildren n, j < s.length

/-- Decode a list of indices with a given decoder, failing if any member
fails. -/
def optionMapList (f : Nat → Option ElementNode) : List Nat → Option (List ElementNode)
  | [] => some []
  | i :: is =>
    match f i, optionMapList f is with
    | some t, some ts => some (t :: ts)
    | _, _ => none

/-- Decode the value tree rooted at a store index; fuel bounds the depth. -/
def readTree (fuel : Nat) (s : Store) (i : Nat) : Option ElementNode :=
  match fuel with
  | 0 => none
  | fuel1 + 1 =>
    match s[i]? with
    | some (.basicElement r p) => some (.basicElement r p)
    | some .emptyElement => some .emptyElement
    | some (.elementModifier d p) => some (.elementModifier d p)
    | some (.modifiedElement b ms) =>
      match readTree fuel1 s b, optionMapList (readTree fuel1 s) ms with
      | some bt, some mts => some (.modifiedElement bt mts)
      | _, _ => none
    | some (.compositeElement es) =>
      match optionMapList (readTree fuel1 s) es with
      | some ets => some (.compositeElement ets)
      | none => none
    | none => none

/-- Decode each index of a list-valued field. -/
def readTreeList (fuel : Nat) (s : Store) (l : List Nat) : Option (List ElementNode) :=
  optionMapList (readTree fuel s) l

/-- Apply a store-threading operation to each index of a list, failing if any
application fails. -/
def stateMapList (f : Store → Nat → Option (Store × Nat)) :
    Store → List Nat → Option (Store × List Nat)
  | s, [] => some (s, [])
  | s, i :: is =>
    match f s i with
    | none => none
    | some (s1, j) =>
      match stateMapList f s1 is with
      | none => none
      | some (s2, js) => some (s2, j :: js)

/-- copy.deepcopy at the heap level: fresh objects are allocated for the
whole object graph below the copied root; no existing object is written. -/
def deepcopyH (fuel : Nat) (s : Store) (i : Nat) : Option (Store × Nat) :=
  match fuel with
  | 0 => none
  | fuel1 + 1 =>
    match s[i]? with
    | some (.basicElement r p) => some (alloc s (.basicElement r p))
    | some .emptyElement => some (alloc s .emptyElement)
    | some (.elementModifier d p) => some (alloc s (.elementModifier d p))
    | some (.modifiedElement b ms) =>
      match deepcopyH fuel1 s b with
      | none => none
      | some (s1, b2) =>
        match stateMapList (deepcopyH fuel1) s1 ms with
        | none => none
        | some (s2, ms2) => some (alloc s2 (.modifiedElement b2 ms2))
    | some (.compositeElement es) =>
      match stateMapList (deepcopyH fuel1) s es with
      | none => none
      | some (s1, es2) => some (alloc s1 (.compositeElement es2))
    | none => none

/-- Deep copy of each index of a list-valued field, threading the store. -/
def deepcopyListH (fuel : Nat) (s : Store) (l : List Nat) : Option (Store × List Nat) :=
  stateMapList (deepcopyH fuel) s l

/-- transform at the heap level: the same recursion as transform, operating
on object identities; reconstruction allocates fresh Modified, Composite and
Empty objects exactly where the Python constructors are called, and the
pass-through branches return the existing object unchanged. -/
def transformH (fuel : Nat) (op : Store → Nat → Option (Store × Nat)) (loc : ElementNode)
    (s : Store) (i : Nat) : Option (Store × Nat) :=
  match fuel with
  | 0 => none
  | fuel1 + 1 =>
    match readTree fuel s i with
    | none => none
    | some v =>
      if pyEq v loc then op s i
      else
        match s[i]? with
        | some (.basicElement _ _) => some (s, i)
        | some (.elementModifier _ _) => some (s, i)
        | some .emptyElement => none
        | some (.modifiedElement b ms) =>
          match transformH fuel1 op loc s b with
          | none => none
          | some (s1, b2) =>
            match s1[b2]? with
            | none => none
            | some hb =>
              if isGenuineH hb then
                match stateMapList (transformH fuel1 op loc) s1 ms with
                | none => none
                | some (s2, tms) =>
                  match tms.filter (fun j => ((s2[j]?).map isModifierH).getD false) with
                  | [] => some (s2, b2)
                  | j :: js => some (alloc s2 (.modifiedElement b2 (j :: js)))
              else some (alloc s1 .emptyElement)
        | some (.compositeElement es) =>
          match stateMapList (transformH fuel1 op loc) s es with
          | none => none
          | some (s2, tes) =>
            match tes.filter (fun j => ((s2[j]?).map isGenuineH).getD false) with
            | [] => some (alloc s2 .emptyElement)
            | [j] => some (s2, j)
            | j :: k :: rest => some (alloc s2 (.compositeElement (j :: k :: rest)))
        | none => none

/-- Heap-level transform of each index of a list-valued field. -/
def transformListH (fuel : Nat) (op : Store → Nat → Option (Store × Nat)) (loc : ElementNode)
    (s : Store) (l : List Nat) : Option (Store × List Nat) :=
  stateMapList (transformH fuel op loc) s l

/-- remove at the heap level: allocate a fresh EmptyElement. -/
def removeOpH (s : Store) (_i : Nat) : Option (Store × Nat) :=
  some (alloc s .emptyElement)

/-- replace at the heap level: the capability check reads the two objects and
either raises (modelled as none) or returns the replacement identity without
writing anything. -/
def replaceOpH (j : Nat) (s : Store) (i : Nat) : Option (Store × Nat) :=
  match s[i]?, s[j]? with
  | some ni, some nj =>
    if isElemH ni && !(isElemH nj) then none
    else if isModifierH ni && !(isModifierH nj) then none
    else some (s, j)
  | _, _ => none

/-- add at the heap level: deep-copy the receiving object, then either wrap
the copy in a fresh Composite or Modified object, append to the copy's own
list field in place (the only in-place write in the engine, and it targets a
freshly copied object), or fall through returning the copy unchanged. -/
def addOpH (fuel : Nat) (j : Nat) (s : Store) (i : Nat) : Option (Store × Nat) :=
  match deepcopyH fuel s i with
  | none => none
  | some (s1, i2) =>
    match s1[i2]?, s1[j]? with
    | some ni, some nj =>
      if (isBasicH ni || isModifiedH ni) && isElemH nj then
        some (alloc s1 (.compositeElement [i2, j]))
      else if (isBasicH ni || isCompositeH ni) && isModifierH nj then
        some (alloc s1 (.modifiedElement i2 [j]))
      else if isCompositeH ni && isElemH nj then
        match ni with
        | .compositeElement es => some (s1.set i2 (.compositeElement (es ++ [j])), i2)
        | _ => none
      else if isModifiedH ni && isModifierH nj then
        match ni with
        | .modifiedElement b ms => some (s1.set i2 (.modifiedElement b (ms ++ [j])), i2)
        | _ => none
      else some (s1, i2)
    | _, _ => none

/-- A heap-level rule: condition pattern, heap operation, location pattern. -/
abbrev HRule : Type :=
  ElementNode × (Store → Nat → Option (Store × Nat)) × ElementNode

/-- Rule loop of Transformation.call at the heap level: each condition is
tested against the subtrees of the tree decoded at the original root in the
current store, and a firing rule rewrites the working copy. -/
def callGoH (fuel : Nat) : List HRule → Store → Nat → Nat → Option (Store × Nat)
  | [], s, _, out => some (s, out)
  | (condition, op, loc) :: rest, s, root, out =>
    match readTree fuel s root with
    | none => none
    | some v =>
      match get_subtrees v with
      | .error _ => none
      | .ok subs =>
        if subs.any (fun x => pyEq condition x) then
          match transformH fuel op loc s out with
          | none => none
          | some (s1, out1) => callGoH fuel rest s1 root out1
        else callGoH fuel rest s root out

/-- Transformation.call at the heap level: deep-copy the input tree, then run
the rule loop against the original root. -/
def callH (fuel : Nat) (rules : List HRule) (s : Store) (root : Nat) :
    Option (Store × Nat) :=
  match deepcopyH fuel s root with
  | none => none
  | some (s0, out0) => callGoH fuel rules s0 root out0

/-- Frame relation between stores: the final store retains every object of
the initial store unchanged (new objects may have been allocated after it). -/
def Frames (s t : Store) : Prop :=
  s.length ≤ t.length ∧ ∀ i, i < s.length → t[i]? = s[i]?

/-- A heap operation is frame-preserving when a successful run retains every
pre-existing object unchanged. -/
def OpFrames (op : Store → Nat → Option (Store × Nat)) : Prop :=
  ∀ s i t r, op s i = some (t, r) → Frames s t

/-! ## Structural equality -/

/-- Pointwise Python equality coincides with equality of lists, assuming the
member-wise coincidence. -/
theorem pyEqList_iff_of {ms : List ElementNode}
    (h : ∀ m ∈ ms, ∀ b, pyEq m b = true ↔ m = b) :
    ∀ l, pyEqList ms l = true ↔ ms = l := by
  induction ms with
  | nil => intro l; cases l <;> simp [pyEqList]
  | cons x xs ih =>
    intro l
    cases l with
    | nil => simp [pyEqList]
    | cons y ys =>
      have hx := h x (by simp)
      have hxs := ih (fun m hm b => h m (by simp [hm]) b) ys
      simp [pyEqList, hx, hxs]

/-- Python structural equality of nodes coincides with equality of the
embedded values. -/
theorem pyEq_iff (a : ElementNode) : ∀ b, pyEq a b = true ↔ a = b := by
  induction a using ElementNode.strongInd with
  | hb r p => intro b; cases b <;> simp [pyEq]
  | he => intro b; cases b <;> simp [pyEq]
  | hm d p => intro b; cases b <;> simp [pyEq]
  | hmod b ms ihb ihms =>
    intro x
    cases x <;> simp [pyEq]
    rw [ihb, pyEqList_iff_of ihms]
  | hcomp es ihes =>
    intro x
    cases x <;> simp [pyEq]
    exact pyEqList_iff_of ihes _

instance : DecidableEq ElementNode :=
  fun a b => decidable_of_iff (pyEq a b = true) (pyEq_iff a b)

/-- Python equality is reflexive. -/
theorem pyEq_refl (a : ElementNode) : pyEq a a = true :=
  (pyEq_iff a a).mpr rfl

/-- The needle-in-list membership test of the Python code coincides with
list membership of values. -/
theorem containsPy_iff (l : List ElementNode) (x : ElementNode) :
    containsPy l x = true ↔ x ∈ l := by
  simp [containsPy, List.any_eq_true]
  constructor
  · rintro ⟨y, hy, he⟩
    exact ((pyEq_iff x y).mp he) ▸ hy
  · intro hx
    exact ⟨x, hx, pyEq_refl x⟩

/-- Membership tests written with the needle on the left also coincide with
list membership. -/
theorem any_pyEq_iff (l : List ElementNode) (c : ElementNode) :
    (l.any fun s => pyEq c s) = true ↔ c ∈ l := containsPy_iff l c

/-! ## Reachability and the node enumeration bound -/

/-- Reachability extends along one more child edge. -/
theorem Reach.into_child {e x c : ElementNode} (h : Reach e x) (hc : c ∈ children x) :
    Reach e c := by
  induction h with
  | refl e => exact Reach.child hc (Reach.refl c)
  | child hd _ ih => exact Reach.child hd (ih hc)

/-- Membership in allNodesList unfolds to membership in a member's allNodes. -/
theorem mem_allNodesList {y : ElementNode} :
    ∀ {l : List ElementNode}, y ∈ allNodesList l ↔ ∃ x ∈ l, y ∈ allNodes x := by
  intro l
  induction l with
  | nil => simp [allNodesList]
  | cons x xs ih => simp [allNodesList, ih]

/-- Every tree occurs in its own node enumeration. -/
theorem self_mem_allNodes (e : ElementNode) : e ∈ allNodes e := by
  cases e <;> simp [allNodes]

/-- Direct children occur in the node enumeration. -/
theorem children_sub_allNodes {c e : ElementNode} (h : c ∈ children e) :
    c ∈ allNodes e := by
  cases e with
  | modifiedElement b ms =>
    simp only [children, List.mem_cons] at h
    rcases h with h | h
    · subst h; simp [allNodes, self_mem_allNodes]
    · simp [allNodes, mem_allNodesList]
      right; right
      exact ⟨c, h, self_mem_allNodes c⟩
  | compositeElement es =>
    simp only [children] at h
    simp [allNodes, mem_allNodesList]
    right
    exact ⟨c, h, self_mem_allNodes c⟩
  | basicElement r p => simp [children] at h
  | emptyElement => simp [children] at h
  | elementModifier d p => simp [children] at h

/-- The node enumeration is closed under taking enumerations of members. -/
theorem allNodes_trans : ∀ (e x y : ElementNode),
    x ∈ allNodes e → y ∈ allNodes x → y ∈ allNodes e := by
  intro e
  induction e using ElementNode.strongInd with
  | hb r p =>
    intro x y hx hy
    simp [allNodes] at hx
    subst hx; simpa [allNodes] using hy
  | he =>
    intro x y hx hy
    simp [allNodes] at hx
    subst hx; simpa [allNodes] using hy
  | hm d p =>
    intro x y hx hy
    simp [allNodes] at hx
    subst hx; simpa [allNodes] using hy
  | hmod b ms ihb ihms =>
    intro x y hx hy
    simp only [allNodes, List.mem_cons, List.mem_append] at hx
    rcases hx with hx | hx | hx
    · subst hx; exact hy
    · simp only [allNodes, List.mem_cons, List.mem_append]
      right; left
      exact ihb x y hx hy
    · rcases mem_allNodesList.mp hx with ⟨m, hm1, hm2⟩
      simp only [allNodes, List.mem_cons, List.mem_append]
      right; right
      exact mem_allNodesList.mpr ⟨m, hm1, ihms m hm1 x y hm2 hy⟩
  | hcomp es ihes =>
    intro x y hx hy
    simp only [allNodes, List.mem_cons] at hx
    rcases hx with hx | hx
    · subst hx; exact hy
    · rcases mem_allNodesList.mp hx with ⟨m, hm1, hm2⟩
      simp only [allNodes, List.mem_cons]
      right
      exact mem_allNodesList.mpr ⟨m, hm1, ihes m hm1 x y hm2 hy⟩

/-- Children of an enumerated node are enumerated. -/
theorem mem_allNodes_children {e x c : ElementNode}
    (hx : x ∈ allNodes e) (hc : c ∈ children x) : c ∈ allNodes e :=
  allNodes_trans e x c hx (children_sub_allNodes hc)

/-! ## The dedup-append loop -/

theorem dedupAppend_nil (acc : List ElementNode) : dedupAppend acc [] = acc := rfl

theorem dedupAppend_cons (acc : List ElementNode) (x : ElementNode) (xs : List ElementNode) :
    dedupAppend acc (x :: xs) =
      dedupAppend (if containsPy acc x then acc else acc ++ [x]) xs := rfl

/-- The dedup-append loop only appends, and appends only members of xs. -/
theorem dedupAppend_extends (xs : List ElementNode) :
    ∀ acc, ∃ ys, dedupAppend acc xs = acc ++ ys ∧ ∀ y ∈ ys, y ∈ xs := by
  induction xs with
  | nil => intro acc; exact ⟨[], by simp [dedupAppend_nil], by simp⟩
  | cons x xs ih =>
    intro acc
    rw [dedupAppend_cons]
    by_cases h : containsPy acc x
    · rcases ih acc with ⟨ys, h1, h2⟩
      rw [if_pos h]
      exact ⟨ys, h1, fun y hy => List.mem_cons_of_mem x (h2 y hy)⟩
    · rcases ih (acc ++ [x]) with ⟨ys, h1, h2⟩
      rw [if_neg h]
      refine ⟨x :: ys, ?_, ?_⟩
      · rw [h1, List.append_assoc]; rfl
      · intro y hy
        rcases List.mem_cons.mp hy with hy | hy
        · subst hy; simp
        · exact List.mem_cons_of_mem x (h2 y hy)

/-- Existing members survive the dedup-append loop. -/
theorem mem_dedupAppend_left {acc : List ElementNode} {x : ElementNode}
    (xs : List ElementNode) (h : x ∈ acc) : x ∈ dedupAppend acc xs := by
  rcases dedupAppend_extends xs acc with ⟨ys, h1, _⟩
  rw [h1]
  exact List.mem_append_left ys h

/-- Every processed item ends up present after the dedup-append loop. -/
theorem mem_dedupAppend_right (xs : List ElementNode) :
    ∀ acc, ∀ x ∈ xs, x ∈ dedupAppend acc xs := by
  induction xs with
  | nil => intro acc x hx; simp at hx
  | cons y ys ih =>
    intro acc x hx
    rw [dedupAppend_cons]
    rcases List.mem_cons.mp hx with hx | hx
    · subst hx
      by_cases h : containsPy acc x
      · rw [if_pos h]
        exact mem_dedupAppend_left ys ((containsPy_iff acc x).mp h)
      · rw [if_neg h]
        exact mem_dedupAppend_left ys (by simp)
    · by_cases h : containsPy acc y
      · rw [if_pos h]; exact ih acc x hx
      · rw [if_neg h]; exact ih (acc ++ [y]) x hx

/-- Conversely, a member after the loop was present before or processed. -/
theorem mem_of_mem_dedupAppend (xs : List ElementNode) :
    ∀ acc x, x ∈ dedupAppend acc xs → x ∈ acc ∨ x ∈ xs := by
  induction xs with
  | nil => intro acc x h; rw [dedupAppend_nil] at h; exact Or.inl h
  | cons y ys ih =>
    intro acc x h
    rw [dedupAppend_cons] at h
    by_cases hc : containsPy acc y
    · rw [if_pos hc] at h
      rcases ih acc x h with h | h
      · exact Or.inl h
      · exact Or.inr (List.mem_cons_of_mem y h)
    · rw [if_neg hc] at h
      rcases ih (acc ++ [y]) x h with h | h
      · rcases List.mem_append.mp h with h | h
        · exact Or.inl h
        · simp at h; subst h; exact Or.inr (by simp)
      · exact Or.inr (List.mem_cons_of_mem y h)

/-- The dedup-append loop preserves duplicate-freeness. -/
theorem dedupAppend_nodup (xs : List ElementNode) :
    ∀ acc, acc.Nodup → (dedupAppend acc xs).Nodup := by
  induction xs with
  | nil => intro acc h; rwa [dedupAppend_nil]
  | cons y ys ih =>
    intro acc h
    rw [dedupAppend_cons]
    by_cases hc : containsPy acc y
    · rw [if_pos hc]; exact ih acc h
    · rw [if_neg hc]
      refine ih (acc ++ [y]) ?_
      have hy : y ∉ acc := fun hm => hc ((containsPy_iff acc y).mpr hm)
      rw [← List.concat_eq_append]
      exact h.concat hy

/-! ## Invariants of the get_subtrees worklist loop -/

/-- The updated worklist of the Modified branch extends the previous one. -/
theorem gsStep_extends (out : List ElementNode) (b : ElementNode) (ms : List ElementNode) :
    ∃ zs, dedupAppend (if containsPy out b then out else out ++ [b]) ms = out ++ zs := by
  by_cases hc : containsPy out b
  · rw [if_pos hc]
    rcases dedupAppend_extends ms out with ⟨ys, h1, _⟩
    exact ⟨ys, h1⟩
  · rw [if_neg hc]
    rcases dedupAppend_extends ms (out ++ [b]) with ⟨ys, h1, _⟩
    exact ⟨[b] ++ ys, by rw [h1, List.append_assoc]⟩

/-- The worklist loop only ever appends to its list. -/
theorem gsGo_extends : ∀ (fuel : Nat) (out : List ElementNode) (i : Nat)
    (l : List ElementNode), gsGo fuel out i = .ok l → ∃ ys, l = out ++ ys := by
  intro fuel
  induction fuel with
  | zero =>
    intro out i l h
    simp only [gsGo] at h
    split at h
    · simp at h
    · simp only [Except.ok.injEq] at h
      exact ⟨[], by simp [h]⟩
  | succ fuel ih =>
    intro out i l h
    simp only [gsGo] at h
    split at h
    · simp only [Except.ok.injEq] at h
      exact ⟨[], by simp [h]⟩
    · split at h
      · exact ih _ _ _ h
      · exact ih _ _ _ h
      · rename_i b ms heq
        rcases ih _ _ _ h with ⟨ys, h1⟩
        rcases gsStep_extends out b ms with ⟨zs, h2⟩
        exact ⟨zs ++ ys, by rw [h1, h2, List.append_assoc]⟩
      · rename_i es heq
        rcases ih _ _ _ h with ⟨ys, h1⟩
        rcases dedupAppend_extends es out with ⟨zs, h2, _⟩
        exact ⟨zs ++ ys, by rw [h1, h2, List.append_assoc]⟩
      · simp at h

/-- Transitivity of the list-extension relation. -/
theorem extends_trans {a b c : List ElementNode}
    (h1 : ∃ ys, b = a ++ ys) (h2 : ∃ zs, c = b ++ zs) : ∃ ws, c = a ++ ws := by
  rcases h1 with ⟨ys, rfl⟩
  rcases h2 with ⟨zs, rfl⟩
  exact ⟨ys ++ zs, by rw [List.append_assoc]⟩

/-- Members survive list extension. -/
theorem mem_of_extends {out l : List ElementNode} {x : ElementNode}
    (h : ∃ ys, l = out ++ ys) (hx : x ∈ out) : x ∈ l := by
  rcases h with ⟨ys, rfl⟩
  exact List.mem_append_left ys hx

/-- Positions of the original list are unchanged by extension. -/
theorem getElem_of_extends {out l : List ElementNode}
    (h : ∃ ys, l = out ++ ys) {i : Nat} (hi : i < out.length) (hl : i < l.length) :
    l[i] = out[i] := by
  rcases h with ⟨ys, rfl⟩
  exact List.getElem_append_left hi

/-- A predicate holding on the worklist and on the children of the processed
Modified entry holds on the updated worklist. -/
theorem step_pred_modified {P : ElementNode → Prop} {out : List ElementNode}
    {b : ElementNode} {ms : List ElementNode}
    (hP : ∀ x ∈ out, P x)
    (hchild : ∀ c ∈ children (ElementNode.modifiedElement b ms), P c) :
    ∀ x ∈ dedupAppend (if containsPy out b then out else out ++ [b]) ms, P x := by
  intro x hx
  rcases mem_of_mem_dedupAppend ms _ x hx with hx1 | hx1
  · by_cases hcb : containsPy out b
    · rw [if_pos hcb] at hx1
      exact hP x hx1
    · rw [if_neg hcb] at hx1
      rcases List.mem_append.mp hx1 with hx2 | hx2
      · exact hP x hx2
      · simp at hx2
        subst hx2
        exact hchild x (by simp [children])
  · exact hchild x (by simp [children, hx1])

/-- A predicate holding on the worklist and on the children of the processed
Composite entry holds on the updated worklist. -/
theorem step_pred_composite {P : ElementNode → Prop} {out : List ElementNode}
    {es : List ElementNode}
    (hP : ∀ x ∈ out, P x)
    (hchild : ∀ c ∈ children (ElementNode.compositeElement es), P c) :
    ∀ x ∈ dedupAppend out es, P x := by
  intro x hx
  rcases mem_of_mem_dedupAppend es _ x hx with hx1 | hx1
  · exact hP x hx1
  · exact hchild x (by simp [children, hx1])

/-- Duplicate-freeness survives the Modified worklist step. -/
theorem step_nodup_modified {out : List ElementNode} {b : ElementNode}
    {ms : List ElementNode} (hnodup : out.Nodup) :
    (dedupAppend (if containsPy out b then out else out ++ [b]) ms).Nodup := by
  apply dedupAppend_nodup
  by_cases hcb : containsPy out b
  · rwa [if_pos hcb]
  · rw [if_neg hcb, ← List.concat_eq_append]
    exact hnodup.concat (fun hm => hcb ((containsPy_iff out b).mpr hm))

/-- The item currently processed by the loop is a member of the worklist. -/
theorem processed_mem {out : List ElementNode} {i : Nat} {sub : ElementNode}
    (hout : out[i]? = some sub) : sub ∈ out := by
  rcases List.getElem?_eq_some.mp hout with ⟨hlen, hget⟩
  exact hget ▸ List.getElem_mem hlen

/-- Every position at or after the scan index of a successfully finished
worklist holds a non-Empty node whose children are all present in the final
list. -/
theorem gsGo_closure : ∀ (fuel : Nat) (out : List ElementNode) (i : Nat)
    (l : List ElementNode), gsGo fuel out i = .ok l →
    ∀ j, i ≤ j → ∀ (hj : j < l.length),
      (∀ c ∈ children l[j], c ∈ l) ∧ l[j] ≠ ElementNode.emptyElement := by
  intro fuel
  induction fuel with
  | zero =>
    intro out i l h j hij hj
    simp only [gsGo] at h
    split at h
    · simp at h
    · rename_i hlt
      simp only [Except.ok.injEq] at h
      subst h
      omega
  | succ fuel ih =>
    intro out i l h j hij hj
    simp only [gsGo] at h
    split at h
    · rename_i hout
      simp only [Except.ok.injEq] at h
      subst h
      have := List.getElem?_eq_none_iff.mp hout
      omega
    · rename_i sub hout
      split at h
      · rename_i r p
        rcases Nat.eq_or_lt_of_le hij with hji | hji
        · subst hji
          rcases List.getElem?_eq_some.mp hout with ⟨hlen, hget⟩
          have hxl := gsGo_extends fuel out (i + 1) l h
          have hgi : l[i] = ElementNode.basicElement r p := by
            rw [getElem_of_extends hxl hlen hj, hget]
          rw [hgi]
          exact ⟨by simp [children], by simp⟩
        · exact ih _ _ _ h j hji hj
      · rename_i d p
        rcases Nat.eq_or_lt_of_le hij with hji | hji
        · subst hji
          rcases List.getElem?_eq_some.mp hout with ⟨hlen, hget⟩
          have hxl := gsGo_extends fuel out (i + 1) l h
          have hgi : l[i] = ElementNode.elementModifier d p := by
            rw [getElem_of_extends hxl hlen hj, hget]
          rw [hgi]
          exact ⟨by simp [children], by simp⟩
        · exact ih _ _ _ h j hji hj
      · rename_i b ms
        rcases Nat.eq_or_lt_of_le hij with hji | hji
        · subst hji
          rcases List.getElem?_eq_some.mp hout with ⟨hlen, hget⟩
          have hxl := gsGo_extends fuel _ (i + 1) l h
          have hol : ∃ ws, l = out ++ ws := extends_trans (gsStep_extends out b ms) hxl
          have hgi : l[i] = ElementNode.modifiedElement b ms := by
            rw [getElem_of_extends hol hlen hj, hget]
          rw [hgi]
          refine ⟨?_, by simp⟩
          intro c hc
          simp only [children, List.mem_cons] at hc
          rcases hc with rfl | hc
          · refine mem_of_extends hxl (mem_dedupAppend_left ms ?_)
            by_cases hcb : containsPy out c
            · rw [if_pos hcb]
              exact (containsPy_iff out c).mp hcb
            · rw [if_neg hcb]
              simp
          · exact mem_of_extends hxl (mem_dedupAppend_right ms _ c hc)
        · exact ih _ _ _ h j hji hj
      · rename_i es
        rcases Nat.eq_or_lt_of_le hij with hji | hji
        · subst hji
          rcases List.getElem?_eq_some.mp hout with ⟨hlen, hget⟩
          have hxl := gsGo_extends fuel _ (i + 1) l h
          have hol : ∃ ws, l = out ++ ws :=
            extends_trans ⟨(dedupAppend_extends es out).choose,
              (dedupAppend_extends es out).choose_spec.1⟩ hxl
          have hgi : l[i] = ElementNode.compositeElement es := by
            rw [getElem_of_extends hol hlen hj, hget]
          rw [hgi]
          refine ⟨?_, by simp⟩
          intro c hc
          simp only [children] at hc
          exact mem_of_extends hxl (mem_dedupAppend_right es _ c hc)
        · exact ih _ _ _ h j hji hj
      · simp at h

/-- Everything collected by a successful worklist run is reachable from the
root whose invariant seeds the worklist, and the collected list stays
duplicate-free. -/
theorem gsGo_sound (e : ElementNode) : ∀ (fuel : Nat) (out : List ElementNode)
    (i : Nat) (l : List ElementNode), gsGo fuel out i = .ok l →
    (∀ x ∈ out, Reach e x) → out.Nodup →
    (∀ x ∈ l, Reach e x) ∧ l.Nodup := by
  intro fuel
  induction fuel with
  | zero =>
    intro out i l h hinv hnodup
    simp only [gsGo] at h
    split at h
    · simp at h
    · simp only [Except.ok.injEq] at h
      subst h
      exact ⟨hinv, hnodup⟩
  | succ fuel ih =>
    intro out i l h hinv hnodup
    simp only [gsGo] at h
    split at h
    · simp only [Except.ok.injEq] at h
      subst h
      exact ⟨hinv, hnodup⟩
    · rename_i sub hout
      split at h
      · exact ih _ _ _ h hinv hnodup
      · exact ih _ _ _ h hinv hnodup
      · rename_i b ms
        refine ih _ _ _ h ?_ (step_nodup_modified hnodup)
        exact step_pred_modified hinv
          (fun c hc => (hinv _ (processed_mem hout)).into_child hc)
      · rename_i es
        refine ih _ _ _ h ?_ (dedupAppend_nodup es out hnodup)
        exact step_pred_composite hinv
          (fun c hc => (hinv _ (processed_mem hout)).into_child hc)
      · simp at h

/-- A TypeError raised by the worklist loop pinpoints a reachable
EmptyElement. -/
theorem gsGo_err (e : ElementNode) : ∀ (fuel : Nat) (out : List ElementNode)
    (i : Nat) (m : String), gsGo fuel out i = .error (.typeError m) →
    (∀ x ∈ out, Reach e x) → Reach e .emptyElement := by
  intro fuel
  induction fuel with
  | zero =>
    intro out i m h hinv
    simp only [gsGo] at h
    split at h <;> simp at h
  | succ fuel ih =>
    intro out i m h hinv
    simp only [gsGo] at h
    split at h
    · simp at h
    · rename_i sub hout
      split at h
      · exact ih _ _ _ h hinv
      · exact ih _ _ _ h hinv
      · exact ih _ _ _ h (step_pred_modified hinv
          (fun c hc => (hinv _ (processed_mem hout)).into_child hc))
      · exact ih _ _ _ h (step_pred_composite hinv
          (fun c hc => (hinv _ (processed_mem hout)).into_child hc))
      · exact hinv _ (processed_mem hout)

/-- The worklist loop only fails with a TypeError or by running out of fuel. -/
theorem gsGo_error_cases : ∀ (fuel : Nat) (out : List ElementNode) (i : Nat)
    (er : PyError), gsGo fuel out i = .error er →
    er = .fuelOut ∨ ∃ m, er = .typeError m := by
  intro fuel
  induction fuel with
  | zero =>
    intro out i er h
    simp only [gsGo] at h
    split at h
    · simp only [Except.error.injEq] at h
      exact Or.inl h.symm
    · simp at h
  | succ fuel ih =>
    intro out i er h
    simp only [gsGo] at h
    split at h
    · simp at h
    · split at h
      · exact ih _ _ _ h
      · exact ih _ _ _ h
      · exact ih _ _ _ h
      · exact ih _ _ _ h
      · simp only [Except.error.injEq] at h
        exact Or.inr ⟨_, h.symm⟩

/-- With a duplicate-free worklist drawn from the node enumeration of a tree
and enough fuel, the worklist loop never runs out of fuel. -/
theorem gsGo_no_fuelOut (e : ElementNode) : ∀ (fuel : Nat) (out : List ElementNode)
    (i : Nat), out.Nodup → (∀ x ∈ out, x ∈ allNodes e) →
    (allNodes e).length + 1 ≤ fuel + i →
    gsGo fuel out i ≠ .error .fuelOut := by
  intro fuel
  induction fuel with
  | zero =>
    intro out i hnodup hsub hfuel
    have hlen : out.length ≤ (allNodes e).length :=
      (hnodup.subperm (fun x hx => hsub x hx)).length_le
    simp only [gsGo]
    rw [if_neg (by omega)]
    simp
  | succ fuel ih =>
    intro out i hnodup hsub hfuel
    simp only [gsGo]
    split
    · simp
    · rename_i sub hout
      split
      · exact ih _ _ hnodup hsub (by omega)
      · exact ih _ _ hnodup hsub (by omega)
      · refine ih _ _ (step_nodup_modified hnodup) ?_ (by omega)
        exact step_pred_modified hsub
          (fun c hc => mem_allNodes_children (hsub _ (processed_mem hout)) hc)
      · rename_i es
        refine ih _ _ (dedupAppend_nodup es out hnodup) ?_ (by omega)
        exact step_pred_composite hsub
          (fun c hc => mem_allNodes_children (hsub _ (processed_mem hout)) hc)
      · simp

/-- In a list closed under children, everything reachable from a member is a
member. -/
theorem reach_mem_of_closed {l : List ElementNode}
    (hclosed : ∀ y ∈ l, ∀ c ∈ children y, c ∈ l) :
    ∀ {root x : ElementNode}, Reach root x → root ∈ l → x ∈ l := by
  intro root x h
  induction h with
  | refl e => exact fun h => h
  | child hd _ ih => exact fun hr => ih (hclosed _ hr _ hd)

/-- A successful get_subtrees run returns a duplicate-free list whose members
are exactly the nodes reachable from the root. -/
theorem get_subtrees_ok_spec {e : ElementNode} {l : List ElementNode}
    (h : get_subtrees e = .ok l) :
    l.Nodup ∧ ∀ x, x ∈ l ↔ Reach e x := by
  have hseed : ∀ x ∈ [e], Reach e x := by
    intro x hx
    simp at hx
    subst hx
    exact Reach.refl _
  have hsound := gsGo_sound e _ [e] 0 l h hseed (by simp)
  have hroot : e ∈ l := mem_of_extends (gsGo_extends _ [e] 0 l h) (by simp)
  have hclosed : ∀ y ∈ l, ∀ c ∈ children y, c ∈ l := by
    intro y hy c hc
    rcases List.mem_iff_getElem.mp hy with ⟨j, hj, hget⟩
    exact (gsGo_closure _ [e] 0 l h j (Nat.zero_le j) hj).1 c (hget ▸ hc)
  refine ⟨hsound.2, fun x => ⟨fun hx => hsound.1 x hx, fun hx => ?_⟩⟩
  exact reach_mem_of_closed hclosed hx hroot

/-- get_subtrees fails, always with a TypeError, exactly when an EmptyElement
node is reachable from the root. -/
theorem get_subtrees_err_iff (e : ElementNode) :
    (∃ m, get_subtrees e = .error (.typeError m)) ↔ Reach e .emptyElement := by
  constructor
  · rintro ⟨m, h⟩
    refine gsGo_err e _ [e] 0 m h ?_
    intro x hx
    simp at hx
    subst hx
    exact Reach.refl _
  · intro hreach
    cases hres : get_subtrees e with
    | ok l =>
      rcases get_subtrees_ok_spec hres with ⟨_, hiff⟩
      rcases List.mem_iff_getElem.mp ((hiff _).mpr hreach) with ⟨j, hj, hget⟩
      exact absurd hget
        ((gsGo_closure _ [e] 0 l hres j (Nat.zero_le j) hj).2)
    | error er =>
      rcases gsGo_error_cases _ [e] 0 er hres with h1 | ⟨m, h1⟩
      · subst h1
        refine absurd hres (gsGo_no_fuelOut e _ [e] 0 (by simp) ?_ (by simp))
        intro x hx
        simp at hx
        subst hx
        exact self_mem_allNodes _
      · subst h1
        exact ⟨m, rfl⟩

/-! ## Properties of transform -/

/-- When the list transformer succeeds, every member was transformed
successfully. -/
theorem transformList_ok_mem {op : ElementNode → Except PyError ElementNode}
    {loc : ElementNode} : ∀ {l tl : List ElementNode},
    transformList l op loc = .ok tl →
    ∀ m ∈ l, ∃ y, transform m op loc = .ok y := by
  intro l
  induction l with
  | nil => intro tl h m hm; simp at hm
  | cons x xs ih =>
    intro tl h m hm
    simp only [transformList] at h
    split at h
    · simp at h
    · rename_i tx htx
      split at h
      · simp at h
      · rename_i txs htxs
        rcases List.mem_cons.mp hm with rfl | hm2
        · exact ⟨tx, htx⟩
        · exact ih htxs m hm2

/-- The successful output of the list transformer is the pointwise transform
of the input list. -/
theorem transformList_ok_forall {op : ElementNode → Except PyError ElementNode}
    {loc : ElementNode} : ∀ {l tl : List ElementNode},
    transformList l op loc = .ok tl →
    tl.length = l.length ∧ ∀ j (hj : j < l.length) (hj2 : j < tl.length),
      transform l[j] op loc = .ok tl[j] := by
  intro l
  induction l with
  | nil =>
    intro tl h
    simp only [transformList, Except.ok.injEq] at h
    subst h
    exact ⟨rfl, fun j hj hj2 => absurd hj (by simp)⟩
  | cons x xs ih =>
    intro tl h
    simp only [transformList] at h
    split at h
    · simp at h
    · rename_i tx htx
      split at h
      · simp at h
      · rename_i txs htxs
        simp only [Except.ok.injEq] at h
        subst h
        rcases ih htxs with ⟨hlen, hall⟩
        refine ⟨by simp [hlen], ?_⟩
        intro j hj hj2
        cases j with
        | zero => simpa using htx
        | succ j =>
          simp only [List.getElem_cons_succ]
          exact hall j (by simpa using hj) (by simpa using hj2)

/-- The list arity invariant is the member-wise invariant. -/
theorem wfList_iff : ∀ l : List ElementNode, wfList l = true ↔ ∀ x ∈ l, wf x = true := by
  intro l
  induction l with
  | nil => simp [wfList]
  | cons x xs ih => simp [wfList, ih]

/-- Transformed lists keep the member-wise arity invariant, given the
invariant-preservation of transform on the members. -/
theorem transformList_wf {op : ElementNode → Except PyError ElementNode}
    {loc : ElementNode} : ∀ (l tl : List ElementNode),
    transformList l op loc = .ok tl →
    (∀ m ∈ l, wf m = true → ∀ y, transform m op loc = .ok y → wf y = true) →
    (∀ m ∈ l, wf m = true) →
    ∀ y ∈ tl, wf y = true := by
  intro l
  induction l with
  | nil =>
    intro tl h _ _ y hy
    simp only [transformList, Except.ok.injEq] at h
    subst h
    simp at hy
  | cons x xs ih =>
    intro tl h hpres hwf y hy
    simp only [transformList] at h
    split at h
    · simp at h
    · rename_i tx htx
      split at h
      · simp at h
      · rename_i txs htxs
        simp only [Except.ok.injEq] at h
        subst h
        rcases List.mem_cons.mp hy with rfl | hy2
        · exact hpres x (by simp) (hwf x (by simp)) y htx
        · exact ih txs htxs (fun m hm => hpres m (by simp [hm]))
            (fun m hm => hwf m (by simp [hm])) y hy2

/-- transform preserves the arity invariant whenever the plugged-in operation
does. -/
theorem transform_wf (op : ElementNode → Except PyError ElementNode)
    (loc : ElementNode) (hop : OpWf op) :
    ∀ e, wf e = true → ∀ r, transform e op loc = .ok r → wf r = true := by
  intro e
  induction e using ElementNode.strongInd with
  | hb r p =>
    intro hwf r2 h
    simp only [transform] at h
    split at h
    · exact hop _ hwf _ h
    · simp only [Except.ok.injEq] at h
      subst h
      exact hwf
  | he =>
    intro hwf r2 h
    simp only [transform] at h
    split at h
    · exact hop _ hwf _ h
    · simp at h
  | hm d p =>
    intro hwf r2 h
    simp only [transform] at h
    split at h
    · exact hop _ hwf _ h
    · simp only [Except.ok.injEq] at h
      subst h
      exact hwf
  | hmod b ms ihb ihms =>
    intro hwf r2 h
    have hwf2 := hwf
    simp only [wf, Bool.and_eq_true] at hwf2
    obtain ⟨⟨hne, hwb⟩, hwms⟩ := hwf2
    simp only [transform] at h
    split at h
    · exact hop _ hwf _ h
    · split at h
      · simp at h
      · rename_i b2 hb2
        have hwb2 : wf b2 = true := ihb hwb _ hb2
        split at h
        · split at h
          · simp at h
          · rename_i tfds htfds
            have hwtfds : ∀ y ∈ tfds, wf y = true :=
              transformList_wf ms tfds htfds
                (fun m hm => ihms m hm)
                ((wfList_iff ms).mp hwms)
            split at h
            · simp only [Except.ok.injEq] at h
              subst h
              exact hwb2
            · rename_i hnil
              simp only [Except.ok.injEq] at h
              subst h
              simp only [wf, Bool.and_eq_true]
              refine ⟨⟨by simpa using hnil, hwb2⟩, ?_⟩
              rw [wfList_iff]
              intro y hy
              exact hwtfds y (List.mem_of_mem_filter hy)
        · simp only [Except.ok.injEq] at h
          subst h
          simp [wf]
  | hcomp es ihes =>
    intro hwf r2 h
    have hwf2 := hwf
    simp only [wf, Bool.and_eq_true] at hwf2
    obtain ⟨_, hwes⟩ := hwf2
    simp only [transform] at h
    split at h
    · exact hop _ hwf _ h
    · split at h
      · simp at h
      · rename_i tfds htfds
        have hwtfds : ∀ y ∈ tfds, wf y = true :=
          transformList_wf es tfds htfds
            (fun m hm => ihes m hm)
            ((wfList_iff es).mp hwes)
        split at h
        · simp only [Except.ok.injEq] at h
          subst h
          simp [wf]
        · rename_i x hx
          simp only [Except.ok.injEq] at h
          subst h
          have : x ∈ tfds.filter isGenuine := by rw [hx]; simp
          exact hwtfds x (List.mem_of_mem_filter this)
        · rename_i x y rest hxy
          simp only [Except.ok.injEq] at h
          subst h
          simp only [wf, Bool.and_eq_true]
          constructor
          · simp
          · rw [wfList_iff]
            intro z hz
            have hzf : z ∈ tfds.filter isGenuine := by
              rw [hxy]
              exact hz
            exact hwtfds z (List.mem_of_mem_filter hzf)

/-- The rule loop preserves the arity invariant when every rule's operation
does. -/
theorem transformationGo_wf : ∀ (rules : List Rule) (e out r : ElementNode),
    (∀ rl ∈ rules, OpWf rl.2.1) → wf out = true →
    transformationGo rules e out = .ok r → wf r = true := by
  intro rules
  induction rules with
  | nil =>
    intro e out r _ hw h
    simp only [transformationGo, Except.ok.injEq] at h
    subst h
    exact hw
  | cons rl rest ih =>
    rcases rl with ⟨c, op, loc⟩
    intro e out r hops hw h
    simp only [transformationGo] at h
    split at h
    · simp at h
    · rename_i subs hsubs
      split at h
      · split at h
        · simp at h
        · rename_i out1 hout1
          refine ih e out1 r (fun rl2 hrl2 => hops rl2 (by simp [hrl2])) ?_ h
          exact transform_wf op loc (hops (c, op, loc) (by simp)) out hw out1 hout1
      · exact ih e out r (fun rl2 hrl2 => hops rl2 (by simp [hrl2])) hw h

/-- The rule loop equals the condition-free action fold over the rules whose
condition matches a subtree of the original element. -/
theorem transformationGo_filter : ∀ (rules : List Rule) (e out : ElementNode)
    (subs : List ElementNode), get_subtrees e = .ok subs →
    transformationGo rules e out =
      applyActions (rules.filter (fun rl => subs.any (fun s => pyEq rl.1 s))) out := by
  intro rules
  induction rules with
  | nil => intro e out subs h; simp [transformationGo, applyActions]
  | cons rl rest ih =>
    rcases rl with ⟨c, op, loc⟩
    intro e out subs h
    simp only [transformationGo, h, List.filter_cons]
    by_cases hc : (subs.any fun s => pyEq c s) = true
    · simp only [hc, if_pos]
      simp only [applyActions]
      cases htr : transform out op loc with
      | error er => rfl
      | ok out1 => exact ih e out1 subs h
    · simp only [Bool.not_eq_true] at hc
      simp only [hc]
      simp only [Bool.false_eq_true, if_false]
      exact ih e out subs h

/-- On a successful transform run, every visited node that is not the match
location is not an EmptyElement (otherwise the run would have raised). -/
theorem visits_not_empty {op : ElementNode → Except PyError ElementNode}
    {loc : ElementNode} : ∀ {e x : ElementNode}, Visits op loc e x →
    ∀ r, transform e op loc = .ok r → pyEq x loc = false →
    x ≠ .emptyElement := by
  intro e x hv
  induction hv with
  | here e =>
    intro r h hne heq
    subst heq
    simp [transform, hne] at h
  | modBase hne hv ih =>
    intro r h hxne
    simp only [transform, hne] at h
    simp only [Bool.false_eq_true, if_false] at h
    split at h
    · simp at h
    · rename_i b2 hb2
      exact ih b2 hb2 hxne
  | modMod hne hb2 hgen hm hv ih =>
    intro r h hxne
    simp only [transform, hne, hb2, hgen] at h
    simp only [Bool.false_eq_true, if_false, if_pos] at h
    split at h
    · simp at h
    · rename_i tfds htfds
      rcases transformList_ok_mem htfds _ hm with ⟨y, hy⟩
      exact ih y hy hxne
  | compChild hne hc hv ih =>
    intro r h hxne
    simp only [transform, hne] at h
    simp only [Bool.false_eq_true, if_false] at h
    split at h
    · simp at h
    · rename_i tfds htfds
      rcases transformList_ok_mem htfds _ hc with ⟨y, hy⟩
      exact ih y hy hxne

/-! ## Target resolution -/

/-- One unfolding step of resolveTarget below a parent link. -/
theorem resolve_step (a : Option TargetAttr) (i : Option Nat) (t : Target)
    (v : Option TargetTag) (E : ElementNode) :
    resolveTarget (.mk a i (some t) v) E =
      match resolveTarget t E with
      | none => none
      | some node => resolveFrom node a i := rfl

/-- Tagging a Target with a leaf variant does not change how it resolves. -/
theorem resolve_tag (t : Target) (g : TargetTag) (E : ElementNode) :
    resolveTarget (tagTarget t g) E = resolveTarget t E := by
  cases t with
  | mk a i p v => cases p <;> rfl

/-- Resolving one step into the element field of a resolved Modified node. -/
theorem resolve_into_element {t : Target} {E b : ElementNode} {ms : List ElementNode}
    (h : resolveTarget t E = some (.modifiedElement b ms)) :
    resolveTarget (.mk (some .element) none (some t) none) E = some b := by
  rw [resolve_step, h]
  rfl

/-- Resolving one step into an index of the modifiers field. -/
theorem resolve_into_modifiers {t : Target} {E b : ElementNode} {ms : List ElementNode}
    (h : resolveTarget t E = some (.modifiedElement b ms)) (j : Nat) :
    resolveTarget (.mk (some .modifiers) (some j) (some t) none) E = ms[j]? := by
  rw [resolve_step, h]
  rfl

/-- Resolving one step into an index of the elements field. -/
theorem resolve_into_elements {t : Target} {E : ElementNode} {es : List ElementNode}
    (h : resolveTarget t E = some (.compositeElement es)) (j : Nat) :
    resolveTarget (.mk (some .elements) (some j) (some t) none) E = es[j]? := by
  rw [resolve_step, h]
  rfl

/-- Indexed-descent correctness: every pair produced along an indexed field
resolves, provided the indexed child targets resolve to the members. -/
theorem getTargetsIdx_resolve {E : ElementNode} {a : TargetAttr} {t : Target}
    {full : List ElementNode}
    (hstep : ∀ j, resolveTarget (.mk (some a) (some j) (some t) none) E = full[j]?) :
    ∀ (l : List ElementNode) (i : Nat),
    (∀ k (hk : k < l.length), full[i + k]? = some l[k]) →
    (∀ m ∈ l, ∀ t2, resolveTarget t2 E = some m →
        ∀ p ∈ getTargets m t2, resolveTarget p.2 E = some p.1) →
    ∀ p ∈ getTargetsIdx l a t i, resolveTarget p.2 E = some p.1 := by
  intro l
  induction l with
  | nil => intro i _ _ p hp; simp [getTargetsIdx] at hp
  | cons x xs ih =>
    intro i hfull hIH p hp
    simp only [getTargetsIdx, List.mem_append] at hp
    rcases hp with hp | hp
    · refine hIH x (by simp) (.mk (some a) (some i) (some t) none) ?_ p hp
      rw [hstep i]
      have h0 := hfull 0 (by simp)
      simpa using h0
    · refine ih (i + 1) ?_ (fun m hm => hIH m (by simp [hm])) p hp
      intro k hk
      have hk1 := hfull (k + 1) (by simpa using Nat.succ_lt_succ hk)
      rw [show i + 1 + k = i + (k + 1) by omega]
      simpa using hk1

/-- Every produced (leaf, Target) pair resolves back to its leaf, relative to
any root the accumulated Target resolves from. -/
theorem getTargets_resolve (E : ElementNode) : ∀ (cur : ElementNode) (t : Target),
    resolveTarget t E = some cur →
    ∀ p ∈ getTargets cur t, resolveTarget p.2 E = some p.1 := by
  intro cur
  induction cur using ElementNode.strongInd with
  | hb r p =>
    intro t ht pr hpr
    simp only [getTargets, List.mem_singleton] at hpr
    subst hpr
    rw [resolve_tag]
    exact ht
  | he => intro t ht pr hpr; simp [getTargets] at hpr
  | hm d p =>
    intro t ht pr hpr
    simp only [getTargets, List.mem_singleton] at hpr
    subst hpr
    rw [resolve_tag]
    exact ht
  | hmod b ms ihb ihms =>
    intro t ht pr hpr
    simp only [getTargets, List.mem_append] at hpr
    rcases hpr with hpr | hpr
    · exact ihb (.mk (some .element) none (some t) none)
        (resolve_into_element ht) pr hpr
    · refine getTargetsIdx_resolve (resolve_into_modifiers ht) ms 0 ?_
        (fun m hm => ihms m hm) pr hpr
      intro k hk
      simp [List.getElem?_eq_getElem]
  | hcomp es ihes =>
    intro t ht pr hpr
    simp only [getTargets] at hpr
    refine getTargetsIdx_resolve (resolve_into_elements ht) es 0 ?_
      (fun m hm => ihes m hm) pr hpr
    intro k hk
    simp [List.getElem?_eq_getElem]

/-- Indexed-descent coverage: a target is produced for a leaf reachable
through any member of the indexed field. -/
theorem getTargetsIdx_cover {a : TargetAttr} {t : Target} :
    ∀ (l : List ElementNode) (i : Nat) (c L : ElementNode), c ∈ l →
    (∀ t2, ∃ tg, (L, tg) ∈ getTargets c t2) →
    ∃ tg, (L, tg) ∈ getTargetsIdx l a t i := by
  intro l
  induction l with
  | nil => intro i c L hc _; simp at hc
  | cons x xs ih =>
    intro i c L hc hcov
    rcases List.mem_cons.mp hc with rfl | hc2
    · rcases hcov (.mk (some a) (some i) (some t) none) with ⟨tg, htg⟩
      exact ⟨tg, by simp only [getTargetsIdx, List.mem_append]; exact Or.inl htg⟩
    · rcases ih (i + 1) c L hc2 hcov with ⟨tg, htg⟩
      exact ⟨tg, by simp only [getTargetsIdx, List.mem_append]; exact Or.inr htg⟩

/-- Coverage: every reachable leaf receives a Target, whatever the
accumulated Target of the current subtree is. -/
theorem getTargets_cover : ∀ (cur L : ElementNode), Reach cur L →
    isLeafNode L = true → ∀ t, ∃ tg, (L, tg) ∈ getTargets cur t := by
  intro cur
  induction cur using ElementNode.strongInd with
  | hb r p =>
    intro L hreach hleaf t
    cases hreach with
    | refl => exact ⟨tagTarget t .basicTag, by simp [getTargets]⟩
    | child hc _ => simp [children] at hc
  | he =>
    intro L hreach hleaf t
    cases hreach with
    | refl => simp [isLeafNode, isBasicE, isModifierNode] at hleaf
    | child hc _ => simp [children] at hc
  | hm d p =>
    intro L hreach hleaf t
    cases hreach with
    | refl => exact ⟨tagTarget t .modifierTag, by simp [getTargets]⟩
    | child hc _ => simp [children] at hc
  | hmod b ms ihb ihms =>
    intro L hreach hleaf t
    cases hreach with
    | refl => simp [isLeafNode, isBasicE, isModifierNode] at hleaf
    | child hc hr =>
      rename_i c
      simp only [children, List.mem_cons] at hc
      rcases hc with rfl | hc
      · rcases ihb L hr hleaf (.mk (some .element) none (some t) none) with ⟨tg, htg⟩
        exact ⟨tg, by simp only [getTargets, List.mem_append]; exact Or.inl htg⟩
      · rcases getTargetsIdx_cover ms 0 c L hc
          (fun t2 => ihms c hc L hr hleaf t2) with ⟨tg, htg⟩
        exact ⟨tg, by simp only [getTargets, List.mem_append]; exact Or.inr htg⟩
  | hcomp es ihes =>
    intro L hreach hleaf t
    cases hreach with
    | refl => simp [isLeafNode, isBasicE, isModifierNode] at hleaf
    | child hc hr =>
      rename_i c
      simp only [children] at hc
      rcases getTargetsIdx_cover es 0 c L hc
        (fun t2 => ihes c hc L hr hleaf t2) with ⟨tg, htg⟩
      exact ⟨tg, by simpa only [getTargets] using htg⟩

/-! ## Frame reasoning over the heap model -/

theorem frames_rfl (s : Store) : Frames s s :=
  ⟨le_rfl, fun _ _ => rfl⟩

theorem frames_trans {s t u : Store} (h1 : Frames s t) (h2 : Frames t u) : Frames s u :=
  ⟨h1.1.trans h2.1, fun i hi => (h2.2 i (lt_of_lt_of_le hi h1.1)).trans (h1.2 i hi)⟩

/-- Appending objects retains every existing object. -/
theorem frames_append (s : Store) (ys : List HNode) : Frames s (s ++ ys) := by
  refine ⟨by simp, fun i hi => List.getElem?_append_left hi⟩

/-- Writing at an index past the original store retains its objects. -/
theorem frames_set {s s1 : Store} {i2 : Nat} (h : Frames s s1) (hi : s.length ≤ i2)
    (n : HNode) : Frames s (s1.set i2 n) := by
  refine ⟨by simpa using h.1, fun i hilt => ?_⟩
  rw [List.getElem?_set_ne (by omega)]
  exact h.2 i hilt

/-- Deep copy only allocates: every existing object is retained, and the
copied root is a fresh identity. -/
theorem deepcopyH_frames : ∀ (fuel : Nat),
    (∀ (s : Store) (i : Nat) (t : Store) (r : Nat), deepcopyH fuel s i = some (t, r) →
      Frames s t ∧ s.length ≤ r ∧ r < t.length) ∧
    (∀ (l : List Nat) (s : Store) (t : Store) (rs : List Nat),
      deepcopyListH fuel s l = some (t, rs) → Frames s t) := by
  intro fuel
  induction fuel with
  | zero =>
    constructor
    · intro s i t r h
      simp [deepcopyH] at h
    · intro l
      induction l with
      | nil =>
        intro s t rs h
        simp only [deepcopyListH, stateMapList, Option.some.injEq, Prod.mk.injEq] at h
        exact h.1 ▸ frames_rfl s
      | cons i is ihl =>
        intro s t rs h
        simp [deepcopyListH, stateMapList, deepcopyH] at h
  | succ fuel ih =>
    have hnode : ∀ (s : Store) (i : Nat) (t : Store) (r : Nat),
        deepcopyH (fuel + 1) s i = some (t, r) →
        Frames s t ∧ s.length ≤ r ∧ r < t.length := by
      intro s i t r h
      simp only [deepcopyH] at h
      split at h
      · simp only [alloc, Option.some.injEq, Prod.mk.injEq] at h
        obtain ⟨h1, h2⟩ := h
        subst h1; subst h2
        exact ⟨frames_append s _, le_rfl, by simp⟩
      · simp only [alloc, Option.some.injEq, Prod.mk.injEq] at h
        obtain ⟨h1, h2⟩ := h
        subst h1; subst h2
        exact ⟨frames_append s _, le_rfl, by simp⟩
      · simp only [alloc, Option.some.injEq, Prod.mk.injEq] at h
        obtain ⟨h1, h2⟩ := h
        subst h1; subst h2
        exact ⟨frames_append s _, le_rfl, by simp⟩
      · rename_i b ms hsi
        split at h
        · simp at h
        · rename_i s1 b2 hb
          split at h
          · simp at h
          · rename_i s2 ms2 hms
            simp only [alloc, Option.some.injEq, Prod.mk.injEq] at h
            obtain ⟨h1, h2⟩ := h
            subst h1; subst h2
            have hf1 := (ih.1 s b s1 b2 hb).1
            have hf2 := ih.2 ms s1 s2 ms2 hms
            have hf : Frames s s2 := frames_trans hf1 hf2
            exact ⟨frames_trans hf (frames_append s2 _), hf.1, by simp⟩
      · rename_i es hsi
        split at h
        · simp at h
        · rename_i s1 es2 hes
          simp only [alloc, Option.some.injEq, Prod.mk.injEq] at h
          obtain ⟨h1, h2⟩ := h
          subst h1; subst h2
          have hf : Frames s s1 := ih.2 es s s1 es2 hes
          exact ⟨frames_trans hf (frames_append s1 _), hf.1, by simp⟩
      · simp at h
    constructor
    · exact hnode
    · intro l
      induction l with
      | nil =>
        intro s t rs h
        simp only [deepcopyListH, stateMapList, Option.some.injEq, Prod.mk.injEq] at h
        exact h.1 ▸ frames_rfl s
      | cons i is ihl =>
        intro s t rs h
        simp only [deepcopyListH, stateMapList] at h
        split at h
        · simp at h
        · rename_i s1 j hj
          split at h
          · simp at h
          · rename_i s2 js hjs
            simp only [Option.some.injEq, Prod.mk.injEq] at h
            obtain ⟨h1, h2⟩ := h
            subst h1
            exact frames_trans (hnode s i s1 j hj).1 (ihl s1 s2 js hjs)

/-- The heap rewrite only allocates (and calls the operation): every object
of the initial store is retained whenever the operation is
frame-preserving. -/
theorem transformH_frames (op : Store → Nat → Option (Store × Nat))
    (hop : OpFrames op) (loc : ElementNode) : ∀ (fuel : Nat),
    (∀ (s : Store) (i : Nat) (t : Store) (r : Nat),
      transformH fuel op loc s i = some (t, r) → Frames s t) ∧
    (∀ (l : List Nat) (s : Store) (t : Store) (rs : List Nat),
      transformListH fuel op loc s l = some (t, rs) → Frames s t) := by
  intro fuel
  induction fuel with
  | zero =>
    constructor
    · intro s i t r h
      simp [transformH] at h
    · intro l
      induction l with
      | nil =>
        intro s t rs h
        simp only [transformListH, stateMapList, Option.some.injEq, Prod.mk.injEq] at h
        exact h.1 ▸ frames_rfl s
      | cons i is ihl =>
        intro s t rs h
        simp [transformListH, stateMapList, transformH] at h
  | succ fuel ih =>
    have hnode : ∀ (s : Store) (i : Nat) (t : Store) (r : Nat),
        transformH (fuel + 1) op loc s i = some (t, r) → Frames s t := by
      intro s i t r h
      simp only [transformH] at h
      split at h
      · simp at h
      · rename_i v hv
        split at h
        · exact hop s i t r h
        · split at h
          · simp only [Option.some.injEq, Prod.mk.injEq] at h
            exact h.1 ▸ frames_rfl s
          · simp only [Option.some.injEq, Prod.mk.injEq] at h
            exact h.1 ▸ frames_rfl s
          · simp at h
          · rename_i b ms hsi
            split at h
            · simp at h
            · rename_i s1 b2 hb
              split at h
              · simp at h
              · rename_i hb2node hb2
                split at h
                · split at h
                  · simp at h
                  · rename_i s2 tms htms
                    split at h
                    · simp only [Option.some.injEq, Prod.mk.injEq] at h
                      exact h.1 ▸ frames_trans (ih.1 s b s1 b2 hb)
                        (ih.2 ms s1 s2 tms htms)
                    · simp only [alloc, Option.some.injEq, Prod.mk.injEq] at h
                      refine h.1 ▸ frames_trans (frames_trans (ih.1 s b s1 b2 hb)
                        (ih.2 ms s1 s2 tms htms)) (frames_append s2 _)
                · simp only [alloc, Option.some.injEq, Prod.mk.injEq] at h
                  exact h.1 ▸ frames_trans (ih.1 s b s1 b2 hb) (frames_append s1 _)
          · rename_i es hsi
            split at h
            · simp at h
            · rename_i s2 tes htes
              split at h
              · simp only [alloc, Option.some.injEq, Prod.mk.injEq] at h
                exact h.1 ▸ frames_trans (ih.2 es s s2 tes htes) (frames_append s2 _)
              · simp only [Option.some.injEq, Prod.mk.injEq] at h
                exact h.1 ▸ ih.2 es s s2 tes htes
              · simp only [alloc, Option.some.injEq, Prod.mk.injEq] at h
                exact h.1 ▸ frames_trans (ih.2 es s s2 tes htes) (frames_append s2 _)
          · simp at h
    constructor
    · exact hnode
    · intro l
      induction l with
      | nil =>
        intro s t rs h
        simp only [transformListH, stateMapList, Option.some.injEq, Prod.mk.injEq] at h
        exact h.1 ▸ frames_rfl s
      | cons i is ihl =>
        intro s t rs h
        simp only [transformListH, stateMapList] at h
        split at h
        · simp at h
        · rename_i s1 j hj
          split at h
          · simp at h
          · rename_i s2 js hjs
            simp only [Option.some.injEq, Prod.mk.injEq] at h
            exact h.1 ▸ frames_trans (hnode s i s1 j hj) (ihl s1 s2 js hjs)

/-- remove only allocates the fresh Empty object. -/
theorem removeOpH_frames : OpFrames removeOpH := by
  intro s i t r h
  simp only [removeOpH, alloc, Option.some.injEq, Prod.mk.injEq] at h
  exact h.1 ▸ frames_append s _

/-- replace writes nothing. -/
theorem replaceOpH_frames (j : Nat) : OpFrames (replaceOpH j) := by
  intro s i t r h
  simp only [replaceOpH] at h
  split at h
  · split at h
    · simp at h
    · split at h
      · simp at h
      · simp only [Option.some.injEq, Prod.mk.injEq] at h
        exact h.1 ▸ frames_rfl s
  · simp at h

/-- add deep-copies its receiver and then only allocates or writes to the
fresh copy: every object of the initial store is retained. -/
theorem addOpH_frames (fuel : Nat) (j : Nat) : OpFrames (addOpH fuel j) := by
  intro s i t r h
  simp only [addOpH] at h
  split at h
  · simp at h
  · rename_i s1 i2 hcopy
    obtain ⟨hf1, hle, hlt⟩ := (deepcopyH_frames fuel).1 s i s1 i2 hcopy
    split at h
    · rename_i ni nj hni hnj
      split at h
      · simp only [alloc, Option.some.injEq, Prod.mk.injEq] at h
        exact h.1 ▸ frames_trans hf1 (frames_append s1 _)
      · split at h
        · simp only [alloc, Option.some.injEq, Prod.mk.injEq] at h
          exact h.1 ▸ frames_trans hf1 (frames_append s1 _)
        · split at h
          · split at h
            · simp only [Option.some.injEq, Prod.mk.injEq] at h
              exact h.1 ▸ frames_set hf1 hle _
            · simp at h
          · split at h
            · split at h
              · simp only [Option.some.injEq, Prod.mk.injEq] at h
                exact h.1 ▸ frames_set hf1 hle _
              · simp at h
            · simp only [Option.some.injEq, Prod.mk.injEq] at h
              exact h.1 ▸ hf1
    · simp at h

/-- The rule loop of the heap engine preserves every pre-existing object,
given frame-preserving rule operations. -/
theorem callGoH_frames (fuel : Nat) : ∀ (rules : List HRule) (s : Store)
    (root out : Nat) (t : Store) (r : Nat),
    (∀ rl ∈ rules, OpFrames rl.2.1) →
    callGoH fuel rules s root out = some (t, r) → Frames s t := by
  intro rules
  induction rules with
  | nil =>
    intro s root out t r _ h
    simp only [callGoH, Option.some.injEq, Prod.mk.injEq] at h
    exact h.1 ▸ frames_rfl s
  | cons rl rest ih =>
    rcases rl with ⟨c, op, loc⟩
    intro s root out t r hops h
    simp only [callGoH] at h
    split at h
    · simp at h
    · rename_i v hv
      split at h
      · simp at h
      · rename_i subs hsubs
        split at h
        · split at h
          · simp at h
          · rename_i s1 out1 htr
            have hopf : OpFrames op := hops (c, op, loc) (by simp)
            refine frames_trans ((transformH_frames op hopf loc fuel).1 s out s1 out1 htr) ?_
            exact ih s1 root out1 t r (fun rl2 hrl2 => hops rl2 (by simp [hrl2])) h
        · exact ih s root out t r (fun rl2 hrl2 => hops rl2 (by simp [hrl2])) h

/-- Transformation application at the heap level preserves every
pre-existing object. -/
theorem callH_frames {fuel : Nat} {rules : List HRule} {s : Store} {root : Nat}
    {t : Store} {out : Nat}
    (hops : ∀ rl ∈ rules, OpFrames rl.2.1)
    (h : callH fuel rules s root = some (t, out)) : Frames s t := by
  simp only [callH] at h
  split at h
  · simp at h
  · rename_i s0 out0 hcopy
    exact frames_trans ((deepcopyH_frames fuel).1 s root s0 out0 hcopy).1
      (callGoH_frames fuel rules s0 root out0 t out hops h)

/-- Decoding below the original length is unaffected by frame-preserving
growth of the store, provided the original store is closed. -/
theorem readTree_agree {s t : Store} (hclosed : ClosedStore s) (hframes : Frames s t) :
    ∀ (fuel : Nat),
    (∀ i, i < s.length → readTree fuel t i = readTree fuel s i) ∧
    (∀ l, (∀ j ∈ l, j < s.length) → readTreeList fuel t l = readTreeList fuel s l) := by
  intro fuel
  induction fuel with
  | zero =>
    constructor
    · intro i hi
      simp [readTree]
    · intro l hl
      induction l with
      | nil => simp [readTreeList, optionMapList]
      | cons j js ihl => simp [readTreeList, optionMapList, readTree]
  | succ fuel ih =>
    have hnode : ∀ i, i < s.length → readTree (fuel + 1) t i = readTree (fuel + 1) s i := by
      intro i hi
      have hsi := hframes.2 i hi
      simp only [readTree]
      rw [hsi]
      cases hsv : s[i]? with
      | none => rfl
      | some n =>
        have hmem : n ∈ s := List.getElem?_mem hsv
        have hchild := hclosed n hmem
        cases n with
        | basicElement r p => rfl
        | emptyElement => rfl
        | elementModifier d p => rfl
        | modifiedElement b ms =>
          have h1 := ih.1 b (hchild b (by simp [hchildren]))
          have h2 := ih.2 ms (fun j hj => hchild j (by simp [hchildren, hj]))
          simp only [readTreeList] at h2
          simp only [h1, h2]
        | compositeElement es =>
          have h2 := ih.2 es (fun j hj => hchild j (by simp [hchildren, hj]))
          simp only [readTreeList] at h2
          simp only [h2]
    constructor
    · exact hnode
    · intro l hl
      induction l with
      | nil => simp [readTreeList, optionMapList]
      | cons j js ihl =>
        simp only [readTreeList, optionMapList]
        have hj1 := hnode j (hl j (by simp))
        have hjs := ihl (fun k hk => hl k (by simp [hk]))
        simp only [readTreeList] at hjs
        rw [hj1, hjs]

/-! ## Small capability facts and stock-operation facts -/

/-- The two capabilities partition the closed variant set. -/
theorem isModifierNode_eq_not_isElem (x : ElementNode) :
    isModifierNode x = !isElem x := by
  cases x <;> rfl

/-- The remove operation preserves the arity invariant. -/
theorem removeOp_wf : OpWf (fun x => Except.ok (remove x)) := by
  intro x _ y hy
  simp only [remove, Except.ok.injEq] at hy
  subst hy
  rfl

/-! ## Claim theorems -/

/-- C5: equality of tree nodes is structural, deep and identity-independent:
two ElementNode values compare equal under the Python equality exactly when
they are the same concrete variant with pairwise equal stored fields, i.e.
exactly when they are equal as embedded values; in particular two trees built
independently from equal constructors and equal field values compare
equal. -/
theorem elementNode_equality_structural (a b : ElementNode) :
    pyEq a b = true ↔ a = b :=
  pyEq_iff a b

/-- C2: rules of a Transformation are applied strictly in list order, each
rule's condition is evaluated against the subtree collection of the original
unmutated element, a rule fires exactly when its pattern is structurally
equal to some member of that collection, and firing rules rewrite the
progressively-rebound working copy: the whole call equals the unconditional
action fold over exactly the rules whose pattern occurs among the original
subtrees. -/
theorem transformation_rules_fire_against_original (t : Transformation)
    (e : ElementNode) (subs : List ElementNode)
    (hsubs : get_subtrees e = .ok subs) :
    t.call e =
      applyActions (t.pairs.filter (fun rl => subs.any (fun s => pyEq rl.1 s))) e :=
  transformationGo_filter t.pairs e e subs hsubs

/-- Witness for C2 at a concrete two-element composite and a single matching
remove rule. -/
theorem transformation_rules_fire_against_original_witness :
    Transformation.call
        ⟨[(.basicElement 0 0, fun x => Except.ok (remove x), .basicElement 0 0)]⟩
        (.compositeElement [.basicElement 0 0, .basicElement 1 1]) =
      applyActions
        ([((.basicElement 0 0 : ElementNode),
            fun x => Except.ok (remove x), (.basicElement 0 0 : ElementNode))].filter
          (fun rl =>
            [ElementNode.compositeElement [.basicElement 0 0, .basicElement 1 1],
              .basicElement 0 0, .basicElement 1 1].any (fun s => pyEq rl.1 s)))
        (.compositeElement [.basicElement 0 0, .basicElement 1 1]) :=
  transformation_rules_fire_against_original
    ⟨[(.basicElement 0 0, fun x => Except.ok (remove x), .basicElement 0 0)]⟩
    (.compositeElement [.basicElement 0 0, .basicElement 1 1])
    [ElementNode.compositeElement [.basicElement 0 0, .basicElement 1 1],
      .basicElement 0 0, .basicElement 1 1]
    (by rfl)

/-- C3: the recursive rewrite self-normalizes after deletions: non-matching
Basic elements and Modifiers pass through unchanged; a non-matching Modified
node whose transformed base became Empty collapses to Empty regardless of
its remaining modifiers; if the base survives as a genuine element, the
transformed modifiers that are no longer genuine modifiers are dropped and
the node degrades to the bare base when none remain; a non-matching
Composite node keeps only transformed children that are genuine non-Empty
elements and yields a Composite for two or more survivors, the single
survivor alone, or Empty for none. -/
theorem transform_collapse_behavior (op : ElementNode → Except PyError ElementNode)
    (loc : ElementNode) :
    (∀ r p, pyEq (ElementNode.basicElement r p) loc = false →
      transform (.basicElement r p) op loc = .ok (.basicElement r p)) ∧
    (∀ d p, pyEq (ElementNode.elementModifier d p) loc = false →
      transform (.elementModifier d p) op loc = .ok (.elementModifier d p)) ∧
    (∀ b ms, pyEq (ElementNode.modifiedElement b ms) loc = false →
      transform b op loc = .ok .emptyElement →
      transform (.modifiedElement b ms) op loc = .ok .emptyElement) ∧
    (∀ b ms b2 tms, pyEq (ElementNode.modifiedElement b ms) loc = false →
      transform b op loc = .ok b2 → isGenuine b2 = true →
      transformList ms op loc = .ok tms →
      transform (.modifiedElement b ms) op loc =
        .ok (if (tms.filter isModifierNode).isEmpty then b2
          else .modifiedElement b2 (tms.filter isModifierNode))) ∧
    (∀ es tes, pyEq (ElementNode.compositeElement es) loc = false →
      transformList es op loc = .ok tes →
      transform (.compositeElement es) op loc =
        .ok (match tes.filter isGenuine with
          | [] => .emptyElement
          | [x] => x
          | x :: y :: rest => .compositeElement (x :: y :: rest))) := by
  refine ⟨?_, ?_, ?_, ?_, ?_⟩
  · intro r p h
    simp [transform, h]
  · intro d p h
    simp [transform, h]
  · intro b ms h hb
    simp [transform, h, hb, isGenuine, truthy]
  · intro b ms b2 tms h hb hgen htms
    by_cases hm : (tms.filter isModifierNode).isEmpty
    · simp [transform, h, hb, hgen, htms, hm]
    · simp [transform, h, hb, hgen, htms, hm]
  · intro es tes h htes
    cases hfil : tes.filter isGenuine with
    | nil => simp [transform, h, htes, hfil]
    | cons x rest =>
      cases rest with
      | nil => simp [transform, h, htes, hfil]
      | cons y rest2 => simp [transform, h, htes, hfil]

/-- Witness for C3: removing the sole genuine child of a two-element
composite collapses it to the surviving sibling. -/
theorem transform_collapse_behavior_witness :
    transform (.compositeElement [.basicElement 0 0, .basicElement 1 1])
        (fun x => Except.ok (remove x)) (.basicElement 0 0) =
      .ok (.basicElement 1 1) := by
  have h := (transform_collapse_behavior
      (fun x => Except.ok (remove x)) (.basicElement 0 0)).2.2.2.2
      [ElementNode.basicElement 0 0, .basicElement 1 1]
      [ElementNode.emptyElement, .basicElement 1 1]
      (by rfl) (by rfl)
  simpa using h

/-- C4: arity invariants hold post-rewrite: whenever the plugged-in operation
preserves the invariant, every reachable Modified node of the output of
transform, and of a whole Transformation application, has at least one
modifier and every reachable Composite node has at least two children. -/
theorem transform_preserves_arity :
    (∀ (op : ElementNode → Except PyError ElementNode) (loc e r : ElementNode),
      OpWf op → wf e = true → transform e op loc = .ok r → wf r = true) ∧
    (∀ (t : Transformation) (e r : ElementNode),
      (∀ rl ∈ t.pairs, OpWf rl.2.1) → wf e = true → t.call e = .ok r →
      wf r = true) := by
  constructor
  · intro op loc e r hop hw h
    exact transform_wf op loc hop e hw r h
  · intro t e r hops hw h
    exact transformationGo_wf t.pairs e e r hops hw h

/-- Witness for C4: a remove rule applied to a two-element composite yields a
tree satisfying the arity invariant. -/
theorem transform_preserves_arity_witness :
    wf (ElementNode.basicElement 1 1) = true :=
  transform_preserves_arity.2
    ⟨[(.basicElement 0 0, fun x => Except.ok (remove x), .basicElement 0 0)]⟩
    (.compositeElement [.basicElement 0 0, .basicElement 1 1])
    (.basicElement 1 1)
    (by
      intro rl hrl
      simp only [List.mem_singleton] at hrl
      subst hrl
      exact removeOp_wf)
    (by rfl)
    (by rfl)

/-- C6: replace returns its replacement and raises a typed error exactly when
capabilities mismatch: an Element position receiving a non-Element, or a
modifier position receiving a non-modifier; in the matching-capability cases
it returns the replacement without error. -/
theorem replace_capability_check (element replacement : ElementNode) :
    (isElem element = true → isElem replacement = false →
      replace element replacement =
        .error (.typeError ("Expected Element, got " ++ typeName replacement))) ∧
    (isModifierNode element = true → isModifierNode replacement = false →
      replace element replacement =
        .error (.typeError ("Expected ElementModifier, got " ++ typeName replacement))) ∧
    ((∃ m, replace element replacement = .error (.typeError m)) ↔
      ((isElem element = true ∧ isElem replacement = false) ∨
        (isModifierNode element = true ∧ isModifierNode replacement = false))) ∧
    (((isElem element = true → isElem replacement = true) ∧
      (isModifierNode element = true → isModifierNode replacement = true)) →
      replace element replacement = .ok replacement) := by
  refine ⟨?_, ?_, ?_, ?_⟩
  · intro h1 h2
    simp [replace, h1, h2]
  · intro h1 h2
    have h3 : isElem element = false := by
      rw [isModifierNode_eq_not_isElem] at h1
      simpa using h1
    simp [replace, h1, h2, h3]
  · cases element <;> cases replacement <;>
      simp [replace, isElem, isModifierNode]
  · intro h
    cases element <;> cases replacement <;>
      simp_all [replace, isElem, isModifierNode]

/-- Witness for C6: replacing a basic element by a modifier raises the typed
error; replacing it by another element succeeds. -/
theorem replace_capability_check_witness :
    replace (.basicElement 0 0) (.elementModifier 2 2) =
        .error (.typeError "Expected Element, got ElementModifier") ∧
    replace (.basicElement 0 0) (.basicElement 3 3) =
        .ok (.basicElement 3 3) :=
  ⟨(replace_capability_check (.basicElement 0 0) (.elementModifier 2 2)).1
      (by rfl) (by rfl),
    (replace_capability_check (.basicElement 0 0) (.basicElement 3 3)).2.2.2
      ⟨fun _ => rfl, fun h => by simp [isModifierNode] at h⟩⟩

/-- C7: add dispatches on the receiving node's variant and the addition's
capability: a Basic or Modified receiver with an Element addition yields a
new two-member Composite; a Basic or Composite receiver with a modifier
addition yields a new Modified wrapping the receiver; a Composite receiver
with an Element addition appends to the child list; a Modified receiver with
a modifier addition appends to the modifier sequence; every other
combination (Empty or modifier receiver) is a silent no-op returning the
copied element unchanged, never an error; and the heap-level add never
mutates any pre-existing object, its receiver argument included. -/
theorem add_dispatch_no_mutation :
    (∀ r p x, isElem x = true →
      add (.basicElement r p) x = .compositeElement [.basicElement r p, x]) ∧
    (∀ r p x, isModifierNode x = true →
      add (.basicElement r p) x = .modifiedElement (.basicElement r p) [x]) ∧
    (∀ b ms x, isElem x = true →
      add (.modifiedElement b ms) x = .compositeElement [.modifiedElement b ms, x]) ∧
    (∀ b ms x, isModifierNode x = true →
      add (.modifiedElement b ms) x = .modifiedElement b (ms ++ [x])) ∧
    (∀ es x, isElem x = true →
      add (.compositeElement es) x = .compositeElement (es ++ [x])) ∧
    (∀ es x, isModifierNode x = true →
      add (.compositeElement es) x = .modifiedElement (.compositeElement es) [x]) ∧
    (∀ x, add .emptyElement x = .emptyElement) ∧
    (∀ d p x, add (.elementModifier d p) x = .elementModifier d p) ∧
    (∀ (fuel j : Nat), OpFrames (addOpH fuel j)) := by
  refine ⟨?_, ?_, ?_, ?_, ?_, ?_, ?_, ?_, fun fuel j => addOpH_frames fuel j⟩
  · intro r p x h
    simp [add, isBasicE, h]
  · intro r p x h
    have h2 : isElem x = false := by
      rw [isModifierNode_eq_not_isElem] at h
      simpa using h
    simp [add, isBasicE, h, h2]
  · intro b ms x h
    simp [add, isBasicE, isModifiedE, h]
  · intro b ms x h
    have h2 : isElem x = false := by
      rw [isModifierNode_eq_not_isElem] at h
      simpa using h
    simp [add, isBasicE, isModifiedE, isCompositeE, h, h2, appendModifier]
  · intro es x h
    have h2 : isModifierNode x = false := by
      rw [isModifierNode_eq_not_isElem, h]
      rfl
    simp [add, isBasicE, isModifiedE, isCompositeE, h, h2, appendChild]
  · intro es x h
    simp [add, isBasicE, isModifiedE, isCompositeE, h]
  · intro x
    cases hx : isElem x <;>
      simp [add, isBasicE, isModifiedE, isCompositeE, hx,
        isModifierNode_eq_not_isElem]
  · intro d p x
    cases hx : isElem x <;>
      simp [add, isBasicE, isModifiedE, isCompositeE, hx,
        isModifierNode_eq_not_isElem]

/-- Witness for C7: adding a basic element to a basic element forms the
two-member composite, and a concrete heap-level add retains the original
store. -/
theorem add_dispatch_no_mutation_witness :
    add (.basicElement 0 0) (.basicElement 1 1) =
        .compositeElement [.basicElement 0 0, .basicElement 1 1] ∧
    Frames [HNode.basicElement 0 0, HNode.basicElement 1 1]
      [HNode.basicElement 0 0, HNode.basicElement 1 1,
        HNode.basicElement 0 0, HNode.compositeElement [2, 1]] :=
  ⟨add_dispatch_no_mutation.1 0 0 (.basicElement 1 1) (by rfl),
    add_dispatch_no_mutation.2.2.2.2.2.2.2.2 5 1
      [HNode.basicElement 0 0, HNode.basicElement 1 1] 0
      [HNode.basicElement 0 0, HNode.basicElement 1 1,
        HNode.basicElement 0 0, HNode.compositeElement [2, 1]] 3 (by rfl)⟩

/-- C8 counterexample: the claim asserts get_subtrees fails exactly on
unrecognized node variants, but EmptyElement is a recognized variant of the
closed data model (paragraph 3 of the specification) and get_subtrees still
raises a TypeError on a tree consisting of that recognized variant alone. -/
theorem get_subtrees_fails_on_recognized_empty :
    get_subtrees ElementNode.emptyElement =
      .error (.typeError "Unexpected type EmptyElement") := rfl

/-- C8 amended: a successful get_subtrees run returns the duplicate-free
collection of exactly the nodes reachable from the root by unfolding
Modified.element, the Modified.modifiers entries and the Composite.elements
entries, the root included, Basic elements and Modifiers terminating the
recursion; and it fails, with a TypeError from the unrecognized-variant
branch, if and only if an EmptyElement (which that branch catches) is
reachable during the traversal. -/
theorem get_subtrees_spec (e : ElementNode) :
    (∀ l, get_subtrees e = .ok l → (l.Nodup ∧ ∀ x, x ∈ l ↔ Reach e x)) ∧
    ((∃ m, get_subtrees e = .error (.typeError m)) ↔ Reach e .emptyElement) :=
  ⟨fun _ h => get_subtrees_ok_spec h, get_subtrees_err_iff e⟩

/-- Witness for C8 at a concrete composite: its subtree list is
duplicate-free and contains its first child. -/
theorem get_subtrees_spec_witness :
    ([ElementNode.compositeElement [.basicElement 0 0, .basicElement 1 1],
        .basicElement 0 0, .basicElement 1 1] : List ElementNode).Nodup ∧
      Reach (ElementNode.compositeElement [.basicElement 0 0, .basicElement 1 1])
        (.basicElement 0 0) :=
  have h := (get_subtrees_spec
      (.compositeElement [.basicElement 0 0, .basicElement 1 1])).1
    [ElementNode.compositeElement [.basicElement 0 0, .basicElement 1 1],
      .basicElement 0 0, .basicElement 1 1] (by rfl)
  ⟨h.1, (h.2 (.basicElement 0 0)).mp (by simp)⟩

/-- C9: round-trip targeting (Target component modelled from the spec): for
every leaf, basic element or modifier, occurring in the subtree enumeration
of a tree, the produced collection of Targets contains one for that leaf,
and resolving it against the tree, parent chain first, then attribute, then
index, yields a node structurally equal to the leaf. -/
theorem targets_roundtrip (E : ElementNode) (subs : List ElementNode)
    (hsubs : get_subtrees E = .ok subs) :
    ∀ L ∈ subs, isLeafNode L = true →
    ∃ tg, (L, tg) ∈ get_targets E ∧ resolveTarget tg E = some L := by
  intro L hL hleaf
  have hreach : Reach E L := ((get_subtrees_ok_spec hsubs).2 L).mp hL
  rcases getTargets_cover E L hreach hleaf rootTarget with ⟨tg, htg⟩
  exact ⟨tg, htg, getTargets_resolve E E rootTarget rfl (L, tg) htg⟩

/-- Witness for C9: the first child of a concrete composite receives a
resolvable Target. -/
theorem targets_roundtrip_witness :
    ∃ tg, ((ElementNode.basicElement 0 0 : ElementNode), tg) ∈
        get_targets (.compositeElement [.basicElement 0 0, .basicElement 1 1]) ∧
      resolveTarget tg (.compositeElement [.basicElement 0 0, .basicElement 1 1]) =
        some (.basicElement 0 0) :=
  targets_roundtrip (.compositeElement [.basicElement 0 0, .basicElement 1 1])
    [ElementNode.compositeElement [.basicElement 0 0, .basicElement 1 1],
      .basicElement 0 0, .basicElement 1 1]
    (by rfl) (.basicElement 0 0) (by simp) (by rfl)

/-- C10: transform is partial at EmptyElement: an Empty node that is not
structurally equal to the match location makes transform fail with the
unbound-local error, because no dispatch branch assigns a result for the
Empty variant; consequently a successful transform run means every visited
node that did not match the location was a Basic element, a Modifier, a
Modified node or a Composite node, never an EmptyElement. -/
theorem transform_partial_at_empty (op : ElementNode → Except PyError ElementNode)
    (loc : ElementNode) :
    (pyEq .emptyElement loc = false →
      transform .emptyElement op loc = .error .unboundLocal) ∧
    (∀ e r, transform e op loc = .ok r →
      ∀ x, Visits op loc e x → pyEq x loc = false → x ≠ .emptyElement) := by
  constructor
  · intro h
    simp [transform, h]
  · intro e r h x hv hne
    exact visits_not_empty hv r h hne

/-- Witness for C10: transform on a bare EmptyElement with a non-matching
location raises the unbound-local error. -/
theorem transform_partial_at_empty_witness :
    transform .emptyElement (fun x => Except.ok (remove x)) (.basicElement 0 0) =
      .error .unboundLocal :=
  (transform_partial_at_empty (fun x => Except.ok (remove x))
    (.basicElement 0 0)).1 (by rfl)

/-- C1: applying a Transformation never mutates its input: in the heap model
the engine deep-copies the input tree and every subsequent step of the rule
loop either allocates fresh objects or writes only to freshly copied ones,
so after a completed call every pre-existing object is unchanged and the
input tree decodes to a tree structurally equal to its pre-call state. -/
theorem transformation_isolation {fuel : Nat} {rules : List HRule} {s : Store}
    {root : Nat} {t : Store} {out : Nat}
    (hclosed : ClosedStore s) (hroot : root < s.length)
    (hops : ∀ rl ∈ rules, OpFrames rl.2.1)
    (hcall : callH fuel rules s root = some (t, out)) :
    ∀ f, readTree f t root = readTree f s root := fun f =>
  (readTree_agree hclosed (callH_frames hops hcall) f).1 root hroot

/-- Witness for C1: a concrete remove rule applied to a two-child composite
leaves the input tree's decoding untouched. -/
theorem transformation_isolation_witness :
    readTree 10
        [HNode.basicElement 0 0, HNode.basicElement 1 1,
          HNode.compositeElement [0, 1], HNode.basicElement 0 0,
          HNode.basicElement 1 1, HNode.compositeElement [3, 4],
          HNode.emptyElement] 2 =
      readTree 10
        [HNode.basicElement 0 0, HNode.basicElement 1 1,
          HNode.compositeElement [0, 1]] 2 :=
  transformation_isolation (by unfold ClosedStore; decide) (by decide)
    (by
      intro rl hrl
      simp only [List.mem_singleton] at hrl
      subst hrl
      exact removeOpH_frames)
    (show callH 10 [(.basicElement 0 0, removeOpH, .basicElement 0 0)]
        [HNode.basicElement 0 0, HNode.basicElement 1 1,
          HNode.compositeElement [0, 1]] 2 =
      some ([HNode.basicElement 0 0, HNode.basicElement 1 1,
          HNode.compositeElement [0, 1], HNode.basicElement 0 0,
          HNode.basicElement 1 1, HNode.compositeElement [3, 4],
          HNode.emptyElement], 4) from rfl)
    10
